import Mathlib

/-!
# everybit: packed bit array with in-place rotation

Shallow embedding of `src/everybit/bitarray.c` and of the helpers
`testutil_frmstr` and `testutil_expect_internal` of `src/everybit/tests.c`.

Conventions of the embedding (LP64 target, IEEE-754 binary32 `float`):

* `int` is a 32-bit two's complement integer, `size_t` a 64-bit unsigned
  integer, `int_t` (`uint64_t`) a 64-bit word.  Values are kept in `Int`/`Nat`
  and every conversion of the C program is written out (`to_int`, `to_size`);
  a conversion to `int` reduces modulo `2^32`, as GCC and Clang define it.
* `float` values are kept exactly, as `m * 2^q`; every `float` operation of the
  program rounds to nearest, ties to even (`round_f32`).
* Whether `calloc` and `malloc` succeed, and the values `rand()` returns, are
  parameters of the functions that call them.
* Behaviour the C standard leaves undefined (an access outside an array, a
  signed overflow, a float to int conversion out of range) and a failed
  `assert` are the result `none`.
-/

set_option maxRecDepth 100000

namespace Everybit

/-! ## Machine integers -/

/-- Conversion to `int`: reduction modulo `2^32` into `[-2^31, 2^31)`. -/
def to_int (n : Int) : Int := (n + 2 ^ 31) % 2 ^ 32 - 2 ^ 31

/-- Conversion to `size_t`: reduction modulo `2^64`. -/
def to_size (n : Int) : Nat := (n % 2 ^ 64).toNat

/-- The result of a signed `int` operation: undefined on overflow. -/
def int_ok (n : Int) : Option Int :=
  if -(2 ^ 31) ≤ n ∧ n < 2 ^ 31 then some n else none

/-- Bitwise complement of a 64-bit word (`~w`). -/
def cpl (w : Nat) : Nat := 2 ^ 64 - 1 - w % 2 ^ 64

/-- Array read `a[i]`, with `i` a signed index. -/
def rd (a : List Nat) (i : Int) : Option Nat :=
  if 0 ≤ i then a[i.toNat]? else none

/-- Array write `a[i] = v`, with `i` a signed index. -/
def wr (a : List Nat) (i : Int) (v : Nat) : Option (List Nat) :=
  if 0 ≤ i ∧ i.toNat < a.length then some (a.set i.toNat v) else none

/-! ## binary32 arithmetic -/

/-- A finite binary32 value: the number `m * 2^q`. -/
structure float where
  m : Int
  q : Int
deriving DecidableEq

/-- Binary logarithm by repeated halving, at most `fuel` times. -/
def log2_loop : Nat → Nat → Nat
  | 0, _ => 0
  | fuel + 1, n => if 2 ≤ n then log2_loop fuel (n / 2) + 1 else 0

/-- The binary logarithm of `n`, rounded down (`0` for `n = 0`). -/
def nlog2 (n : Nat) : Nat := log2_loop n n

/-- The exponent `e` with `2^e ≤ a / b < 2^(e+1)`, for positive `a` and `b`. -/
def ilog2 (a b : Nat) : Int :=
  if b ≤ a then (nlog2 (a / b) : Int)
  else -((nlog2 ((b - 1) / a) : Int) + 1)

/-- The integer nearest to `n / d`, ties to the even one. -/
def rne (n d : Nat) : Nat :=
  if 2 * (n % d) < d then n / d
  else if d < 2 * (n % d) then n / d + 1
  else if (n / d) % 2 = 0 then n / d else n / d + 1

/-- The binary32 value nearest to the rational `n / d` (`d > 0`), ties to even:
24 significant bits, least exponent `-149`.  (Magnitudes of `2^128` and more,
which round to infinity, do not arise from `int` operands.) -/
def round_f32 (n : Int) (d : Nat) : float :=
  if n = 0 then ⟨0, 0⟩
  else
    let a := n.natAbs
    let q : Int := max (ilog2 a d - 23) (-149)
    let m : Nat :=
      if 0 ≤ q then rne a (d * 2 ^ q.toNat) else rne (a * 2 ^ (-q).toNat) d
    ⟨n.sign * m, q⟩

/-- The conversion `(float)x` of an `int`. -/
def float.of_int (x : Int) : float := round_f32 x 1

/-- The `float` division `a / b`, for `b` not zero. -/
def float.div (a b : float) : float :=
  let e := a.q - b.q
  round_f32 (a.m * b.m.sign * (if 0 ≤ e then 2 ^ e.toNat else 1))
    (b.m.natAbs * (if 0 ≤ e then 1 else 2 ^ (-e).toNat))

/-- The library function `floorf`: the result is an integer, kept as `k * 2^0`. -/
def floorf (f : float) : float :=
  if 0 ≤ f.q then ⟨f.m * 2 ^ f.q.toNat, 0⟩ else ⟨f.m / 2 ^ (-f.q).toNat, 0⟩

/-- The conversion `(int)f`: truncation toward zero, undefined out of range. -/
def float.to_int (f : float) : Option Int :=
  int_ok (if 0 ≤ f.q then f.m * 2 ^ f.q.toNat else Int.tdiv f.m (2 ^ (-f.q).toNat))

/-! ## The mask table -/

/-- The loop of `build_setbit_array`: `for (i = ...; i >= 0; --i) setbit[i] = setbit[i + 1] << 1`. -/
def build_loop : Nat → Int → List Nat → Option (List Nat)
  | 0, i, t => if 0 ≤ i then none else some t
  | n + 1, i, t =>
    if 0 ≤ i then do
      let w ← rd t (i + 1)
      let t1 ← wr t i (w * 2 % 2 ^ 64)
      build_loop n (i - 1) t1
    else some t

/-- The function `build_setbit_array`, on the table `t`. -/
def build_setbit_array (int_sz : Nat) (t : List Nat) : Option (List Nat) := do
  let t1 ← wr t (to_size ((int_sz : Int) - 1)) 1
  build_loop int_sz (to_int (to_size ((int_sz : Int) - 2))) t1

/-- The static table `setbit[64]` as `bitarray_new` leaves it (it starts zeroed). -/
def setbit : List Nat :=
  match build_setbit_array 64 (List.replicate 64 0) with
  | some t => t
  | none => List.replicate 64 0

/-! ## The bit array -/

/-- The struct `bitarray`. -/
structure bitarray where
  bit_sz : Nat
  buf : List Nat
  int_sz : Nat
deriving DecidableEq

/-- The function `bitarray_new` when both allocations succeed: `calloc` gives
`bit_sz / int_sz + 1` zeroed words. -/
def bitarray_new (bit_sz : Nat) : bitarray :=
  { bit_sz := bit_sz, buf := List.replicate (bit_sz / 64 + 1) 0, int_sz := 64 }

/-- The function `bitarray_get_bit_sz`. -/
def bitarray_get_bit_sz (ba : bitarray) : Nat := ba.bit_sz

/-- The function `bitarray_get`. -/
def bitarray_get (ba : bitarray) (bit_index : Nat) : Option Bool :=
  if ba.int_sz = 0 then none
  else do
    let w ← ba.buf[bit_index / ba.int_sz]?
    let s ← setbit[bit_index % ba.int_sz]?
    some (w &&& s != 0)

/-- The function `bitarray_set`. -/
def bitarray_set (ba : bitarray) (bit_index : Nat) (value : Bool) : Option bitarray :=
  if ba.int_sz = 0 then none
  else do
    let w ← ba.buf[bit_index / ba.int_sz]?
    let s ← setbit[bit_index % ba.int_sz]?
    some { ba with
      buf := ba.buf.set (bit_index / ba.int_sz) ((w &&& cpl s) ||| (if value then s else 0)) }

/-- The function `modulo` of two `int`s. -/
def modulo (x y : Int) : Option Int :=
  if y = 0 then some 0
  else do
    let k ← float.to_int (floorf (float.div (float.of_int x) (float.of_int y)))
    let t ← int_ok (y * k)
    int_ok (x - t)

/-- The body of each `while (i < j)` loop of `bitarray_rotate`, without the
final `++i; --j`: exchange bit `i` and bit `j` when they differ. -/
def swap_step (buf : List Nat) (int_sz : Nat) (i j : Int) : Option (List Nat) :=
  if int_sz = 0 then none
  else do
    let di := to_int (to_size i / int_sz)
    let mi := to_int (to_size i % int_sz)
    let dj := to_int (to_size j / int_sz)
    let mj := to_int (to_size j % int_sz)
    let bi := (← rd buf di) &&& (← rd setbit mi)
    let bj := (← rd buf dj) &&& (← rd setbit mj)
    if bi ≠ 0 ∧ bj = 0 then do
      let b1 ← wr buf di ((← rd buf di) &&& cpl (← rd setbit mi))
      wr b1 dj ((← rd b1 dj) ||| (← rd setbit mj))
    else if bi = 0 ∧ bj ≠ 0 then do
      let b1 ← wr buf di ((← rd buf di) ||| (← rd setbit mi))
      wr b1 dj ((← rd b1 dj) &&& cpl (← rd setbit mj))
    else some buf

/-- One `while (i < j) { ...; ++i; --j; }` loop of `bitarray_rotate`, with a
bound on the number of iterations (`none` when the bound is too small).
Inside the loop `i < j`, so `++i` and `--j` cannot overflow. -/
def reverse_loop : Nat → List Nat → Nat → Int → Int → Option (List Nat)
  | 0, buf, _, i, j => if i < j then none else some buf
  | n + 1, buf, int_sz, i, j =>
    if i < j then do
      let b ← swap_step buf int_sz i j
      reverse_loop n b int_sz (i + 1) (j - 1)
    else some buf

/-- One loop of `bitarray_rotate` started at `i`, `j`; `j - i` iterations are
always enough. -/
def reverse_range (buf : List Nat) (int_sz : Nat) (i j : Int) : Option (List Nat) :=
  reverse_loop (j - i).toNat buf int_sz i j

/-- The function `bitarray_rotate`. -/
def bitarray_rotate (ba : bitarray) (bit_offset bit_length : Nat) (shift : Int) :
    Option bitarray :=
  if ¬ (to_size ((bit_offset : Int) + bit_length) ≤ ba.bit_sz) then none
  else if bit_length = 0 then some ba
  else do
    let shift_ := to_size (← modulo (to_int shift) (to_int bit_length))
    let p := bit_offset
    let r := to_size ((p : Int) + bit_length - 1)
    let q := to_size ((r : Int) - shift_ + 1)
    let b1 ← reverse_range ba.buf ba.int_sz (to_int p) (to_int (to_size ((q : Int) - 1)))
    let b2 ← reverse_range b1 ba.int_sz (to_int q) (to_int r)
    let b3 ← reverse_range b2 ba.int_sz (to_int p) (to_int r)
    some { ba with buf := b3 }

/-! ## The test harness: arrays from and to bit strings -/

/-- The helper `boolfromchar` of the harness, with its `assert`. -/
def boolfromchar (c : Char) : Option Bool :=
  if c = '0' ∨ c = '1' then some (c == '1') else none

/-- The loop of `testutil_frmstr`: `bitarray_set(i, boolfromchar(s[i]))` in order. -/
def frmstr_loop : List Char → Nat → bitarray → Option bitarray
  | [], _, ba => some ba
  | c :: cs, i, ba => do
    let ba1 ← bitarray_set ba i (← boolfromchar c)
    frmstr_loop cs (i + 1) ba1

/-- The array `testutil_frmstr` builds from a bit string. -/
def testutil_frmstr (bitstring : String) : Option bitarray :=
  frmstr_loop bitstring.data 0 (bitarray_new bitstring.length)

/-- The bits `0 .. n-1` of the array, as `bitarray_fprint` prints them. -/
def bits_upto (ba : bitarray) : Nat → Option (List Bool)
  | 0 => some []
  | n + 1 => do
    let l ← bits_upto ba n
    let b ← bitarray_get ba n
    some (l ++ [b])

/-- The string `bitarray_fprint` prints. -/
def bitarray_fprint (ba : bitarray) : Option String :=
  (bits_upto ba (bitarray_get_bit_sz ba)).map
    (fun l => String.mk (l.map (fun b => if b then '1' else '0')))

/-! ## Abstract view of an array -/

/-- Representation invariant of the arrays `bitarray_new` makes and the
operations keep: 64-bit words, `bit_sz / 64 + 1` of them, and a `size_t` size. -/
def bitarray.wf (ba : bitarray) : Prop :=
  ba.int_sz = 64 ∧ ba.buf.length = ba.bit_sz / 64 + 1 ∧ ba.bit_sz < 2 ^ 64 ∧
    ∀ w ∈ ba.buf, w < 2 ^ 64

instance (ba : bitarray) : Decidable ba.wf := by
  unfold bitarray.wf; infer_instance

/-- Bit `k` of a buffer of 64-bit words, the most significant bit of a word
first (`false` past the end of the buffer). -/
def bit (buf : List Nat) (k : Nat) : Bool := (buf.getD (k / 64) 0).testBit (63 - k % 64)

/-- The buffer with bit `k` cleared: `buf[k / 64] &= ~setbit[k % 64]`. -/
def clear_bit (buf : List Nat) (k : Nat) : List Nat :=
  buf.set (k / 64) (buf.getD (k / 64) 0 &&& cpl (2 ^ (63 - k % 64)))

/-- The buffer with bit `k` set: `buf[k / 64] |= setbit[k % 64]`. -/
def raise_bit (buf : List Nat) (k : Nat) : List Nat :=
  buf.set (k / 64) (buf.getD (k / 64) 0 ||| 2 ^ (63 - k % 64))

/-- The buffer after one loop body of `bitarray_rotate` at cursors `a`, `b`. -/
def swap_bits (buf : List Nat) (a b : Nat) : List Nat :=
  if bit buf a = true ∧ bit buf b = false then raise_bit (clear_bit buf a) b
  else if bit buf a = false ∧ bit buf b = true then clear_bit (raise_bit buf a) b
  else buf

/-! ## Allocation in `bitarray_new` -/

/-- The two heap blocks of a bit array. -/
inductive block where
  | buf
  | strct
deriving DecidableEq

/-- What a call of `bitarray_new` leaves behind: the pointer it returns (`none`
is `NULL`) and the blocks that are allocated when it returns. -/
structure new_result where
  ret : Option bitarray
  live : List block
deriving DecidableEq

/-- The function `bitarray_new`, with the outcome of its two allocations given:
`calloc_ok` says whether `calloc` returns a buffer, `malloc_ok` whether `malloc`
returns a struct. -/
def bitarray_new_alloc (calloc_ok malloc_ok : Bool) (bit_sz : Nat) : new_result :=
  let int_sz := 64
  if ¬ calloc_ok then { ret := none, live := [] }
  else
    let live1 := [block.buf]
    if ¬ malloc_ok then { ret := none, live := live1.erase block.buf }
    else
      { ret := some { bit_sz := bit_sz, buf := List.replicate (bit_sz / int_sz + 1) 0,
                      int_sz := int_sz },
        live := live1 ++ [block.strct] }

/-! ## `bitarray_randfill` and sequences of calls -/

/-- The loop of `bitarray_randfill`: `for (i = 0; i < bound; ++i) ptr[i] = rand()`,
where `rand i` is the value of the call of `rand()` at iteration `i` (an `int`
between `0` and `RAND_MAX = 2^31 - 1`). -/
def randfill_loop : Nat → Nat → Nat → (Nat → Nat) → List Nat → Option (List Nat)
  | 0, i, bound, _, buf => if i < bound then none else some buf
  | fuel + 1, i, bound, rand, buf =>
    if i < bound then do
      let b ← wr buf (i : Int) (rand i % 2 ^ 31)
      randfill_loop fuel (i + 1) bound rand b
    else some buf

/-- The function `bitarray_randfill`. -/
def bitarray_randfill (rand : Nat → Nat) (ba : bitarray) : Option bitarray := do
  let b ← randfill_loop (ba.bit_sz / 64 + 1) 0 (ba.bit_sz / 64 + 1) rand ba.buf
  some { ba with buf := b }

/-- A call of one of the mutating operations of the interface. -/
inductive op where
  | set (bit_index : Nat) (value : Bool)
  | rotate (bit_offset bit_length : Nat) (shift : Int)
  | randfill (rand : Nat → Nat)

/-- The array after one call. -/
def apply_op (ba : bitarray) : op → Option bitarray
  | op.set i v => bitarray_set ba i v
  | op.rotate off len shift => bitarray_rotate ba off len shift
  | op.randfill rand => bitarray_randfill rand ba

/-- The array after a sequence of calls. -/
def apply_ops (ba : bitarray) : List op → Option bitarray
  | [] => some ba
  | o :: os => (apply_op ba o).bind fun ba1 => apply_ops ba1 os

/-! ## The expectation check of the harness -/

/-- The content loop of `testutil_expect_internal`: `false` at the first bit
that differs from the string. -/
def expect_loop : List Char → Nat → bitarray → Option Bool
  | [], _, _ => some true
  | c :: cs, i, ba => do
    let b ← bitarray_get ba i
    let e ← boolfromchar c
    if b != e then some false else expect_loop cs (i + 1) ba

/-- The function `testutil_expect_internal`: `true` when the test passes
(`bad == NULL`).  The actual bits are copied into a buffer of
`strlen(bitstring) + 1` characters. -/
def testutil_expect_internal (ba : bitarray) (bitstring : String) : Option Bool := do
  let size_ok := decide (bitstring.length = bitarray_get_bit_sz ba)
  let content_ok ← expect_loop bitstring.data 0 ba
  let _ ← bits_upto ba (bitarray_get_bit_sz ba)
  if bitstring.length + 1 < bitarray_get_bit_sz ba then none
  else some (size_ok && content_ok)

/-! ## The factored reversal -/

/-- The loop of `bitarray_reverse`, with `size_t` cursors. -/
def bitarray_reverse_loop : Nat → bitarray → Nat → Nat → Option bitarray
  | 0, ba, i, j => if i < j then none else some ba
  | n + 1, ba, i, j =>
    if i < j then do
      let bit_i ← bitarray_get ba i
      let ba1 ← bitarray_set ba i (← bitarray_get ba j)
      let ba2 ← bitarray_set ba1 j bit_i
      bitarray_reverse_loop n ba2 (to_size ((i : Int) + 1)) (to_size ((j : Int) - 1))
    else some ba

/-- The function `bitarray_reverse`; `j - i` iterations are always enough. -/
def bitarray_reverse (ba : bitarray) (i j : Nat) : Option bitarray :=
  bitarray_reverse_loop (j - i) ba i j

/-- The pivot `q` of `bitarray_rotate`, for a range of positive length. -/
def rotate_pivot (bit_offset bit_length : Nat) (shift : Int) : Option Nat := do
  let shift_ := to_size (← modulo (to_int shift) (to_int bit_length))
  let r := to_size ((bit_offset : Int) + bit_length - 1)
  some (to_size ((r : Int) - shift_ + 1))

/-- Rotation in the factored form of the design note: the checks and the
pivot of `bitarray_rotate`, then `bitarray_reverse(p, q - 1)`,
`bitarray_reverse(q, r)` and `bitarray_reverse(p, r)`. -/
def rotate_factored (ba : bitarray) (bit_offset bit_length : Nat) (shift : Int) :
    Option bitarray :=
  if ¬ (to_size ((bit_offset : Int) + bit_length) ≤ ba.bit_sz) then none
  else if bit_length = 0 then some ba
  else do
    let q ← rotate_pivot bit_offset bit_length shift
    let p := bit_offset
    let r := to_size ((p : Int) + bit_length - 1)
    let ba1 ← bitarray_reverse ba p (to_size ((q : Int) - 1))
    let ba2 ← bitarray_reverse ba1 q r
    bitarray_reverse ba2 p r

/-- The cursor pairs `(i, j)` at which one `while (i < j)` loop of
`bitarray_rotate` runs its body, in order; bit `(size_t)i` and bit `(size_t)j`
are the bits read and written there. -/
def reverse_cursors : Nat → Int → Int → List (Int × Int)
  | 0, _, _ => []
  | n + 1, i, j => if i < j then (i, j) :: reverse_cursors n (i + 1) (j - 1) else []

/-- The cursor pairs of the three loops of `bitarray_rotate`, for a range of
positive length. -/
def rotate_cursors (bit_offset bit_length : Nat) (shift : Int) : Option (List (Int × Int)) := do
  let q ← rotate_pivot bit_offset bit_length shift
  let p := bit_offset
  let r := to_size ((p : Int) + bit_length - 1)
  let j1 := to_int (to_size ((q : Int) - 1))
  some (reverse_cursors (j1 - to_int p).toNat (to_int p) j1 ++
    reverse_cursors (to_int r - to_int q).toNat (to_int q) (to_int r) ++
    reverse_cursors (to_int r - to_int p).toNat (to_int p) (to_int r))

/-! ## The mask table and single bits -/

theorem setbit_eq : setbit = (List.range 64).map (fun m => 2 ^ (63 - m)) := by decide

theorem setbit_get (m : Nat) (h : m < 64) : setbit[m]? = some (2 ^ (63 - m)) := by
  rw [setbit_eq]
  simp [h]

theorem and_two_pow_ne_zero (w k : Nat) : (w &&& 2 ^ k != 0) = w.testBit k := by
  rw [Nat.and_two_pow]
  cases h : w.testBit k <;> simp

theorem cpl_two_pow_testBit (k t : Nat) (hk : k < 64) :
    (cpl (2 ^ k)).testBit t = (decide (t < 64) && !decide (k = t)) := by
  have h1 : 2 ^ k < 2 ^ 64 := Nat.pow_lt_pow_right (by norm_num) hk
  have h2 : cpl (2 ^ k) = 2 ^ 64 - (2 ^ k + 1) := by
    unfold cpl
    rw [Nat.mod_eq_of_lt h1]
    omega
  rw [h2, Nat.testBit_two_pow_sub_succ h1, Nat.testBit_two_pow]

theorem get_eq (ba : bitarray) (k : Nat) (h64 : ba.int_sz = 64) (hk : k / 64 < ba.buf.length) :
    bitarray_get ba k = some (bit ba.buf k) := by
  have hm : k % 64 < 64 := Nat.mod_lt _ (by norm_num)
  simp [bitarray_get, h64, setbit_get _ hm, List.getElem?_eq_getElem hk, bit, and_two_pow_ne_zero]

theorem set_word_testBit (w k t : Nat) (v : Bool) (hk : k < 64) :
    ((w &&& cpl (2 ^ k)) ||| (if v then 2 ^ k else 0)).testBit t =
      if t = k then v else (w.testBit t && decide (t < 64)) := by
  rw [Nat.testBit_or, Nat.testBit_and, cpl_two_pow_testBit k t hk]
  by_cases htk : t = k
  · subst htk
    cases v <;> simp [Nat.testBit_two_pow]
  · have hkt : ¬ k = t := fun h => htk h.symm
    cases v <;> simp [Nat.testBit_two_pow, htk, hkt]

theorem set_word_lt (w k : Nat) (v : Bool) (hk : k < 64) :
    ((w &&& cpl (2 ^ k)) ||| (if v then 2 ^ k else 0)) < 2 ^ 64 := by
  apply Nat.or_lt_two_pow
  · apply Nat.and_lt_two_pow
    unfold cpl
    have : 0 < 2 ^ 64 := by norm_num
    omega
  · have h1 : 2 ^ k < 2 ^ 64 := Nat.pow_lt_pow_right (by norm_num) hk
    cases v
    · simp
    · simp only [if_true]
      exact h1

theorem set_eq (ba : bitarray) (k : Nat) (v : Bool) (h64 : ba.int_sz = 64)
    (hk : k / 64 < ba.buf.length) :
    bitarray_set ba k v = some { ba with
      buf := ba.buf.set (k / 64)
        ((ba.buf.getD (k / 64) 0 &&& cpl (2 ^ (63 - k % 64))) |||
          (if v then 2 ^ (63 - k % 64) else 0)) } := by
  have hm : k % 64 < 64 := Nat.mod_lt _ (by norm_num)
  simp [bitarray_set, h64, setbit_get _ hm, List.getElem?_eq_getElem hk, List.getD_eq_getElem _ _ hk]

theorem wf_index (ba : bitarray) (hw : ba.wf) (k : Nat) (hk : k < ba.bit_sz) :
    k / 64 < ba.buf.length := by
  obtain ⟨_, h2, _, _⟩ := hw
  rw [h2]
  have : k / 64 ≤ ba.bit_sz / 64 := Nat.div_le_div_right (Nat.le_of_lt hk)
  omega

theorem bit_set (buf : List Nat) (k j : Nat) (v : Bool) (hk : k / 64 < buf.length) :
    bit (buf.set (k / 64)
        ((buf.getD (k / 64) 0 &&& cpl (2 ^ (63 - k % 64))) |||
          (if v then 2 ^ (63 - k % 64) else 0))) j = if j = k then v else bit buf j := by
  unfold bit
  by_cases hd : j / 64 = k / 64
  · rw [hd, List.getD_eq_getElem?_getD, List.getElem?_set_self hk]
    simp only [Option.getD_some]
    rw [set_word_testBit _ _ _ _ (by omega)]
    by_cases hjk : j = k
    · subst hjk
      simp
    · have hne : ¬ (63 - j % 64 = 63 - k % 64) := by omega
      have hlt : 63 - j % 64 < 64 := by omega
      simp [hne, hjk, hlt]
  · have hjk : ¬ j = k := fun h => hd (by rw [h])
    have hd2 : ¬ k / 64 = j / 64 := fun h => hd h.symm
    rw [List.getD_eq_getElem?_getD, List.getElem?_set_ne hd2]
    simp [hjk, List.getD_eq_getElem?_getD]

theorem get_none (ba : bitarray) (k : Nat) (hk : ba.buf.length ≤ k / ba.int_sz) :
    bitarray_get ba k = none := by
  unfold bitarray_get
  split
  · rfl
  · simp [List.getElem?_eq_none hk]

/-- The representation invariant is kept by `bitarray_set` at an index below `bit_sz`. -/
theorem set_wf (ba : bitarray) (k : Nat) (v : Bool) (hw : ba.wf) (hk : k < ba.bit_sz) :
    ∃ ba1, bitarray_set ba k v = some ba1 ∧ ba1.wf := by
  have hi := wf_index ba hw k hk
  obtain ⟨h64, hlen, hsz, hb⟩ := hw
  refine ⟨_, set_eq ba k v h64 hi, h64, by simpa using hlen, hsz, ?_⟩
  intro w hmem
  rcases List.mem_or_eq_of_mem_set hmem with h1 | h1
  · exact hb w h1
  · rw [h1]
    exact set_word_lt _ _ v (by omega)

/-! ## Single bit access -/

/-- C9: on an array that satisfies the representation invariant, for
`bit_index < bit_sz`, `bitarray_set(bit_index, value)` returns and
`bitarray_get(bit_index)` then returns `value`. -/
theorem set_then_get (ba : bitarray) (bit_index : Nat) (value : Bool) (hw : ba.wf)
    (hi : bit_index < ba.bit_sz) :
    ∃ ba1, bitarray_set ba bit_index value = some ba1 ∧
      bitarray_get ba1 bit_index = some value := by
  have hk := wf_index ba hw bit_index hi
  refine ⟨_, set_eq ba bit_index value hw.1 hk, ?_⟩
  rw [get_eq]
  · dsimp only
    rw [bit_set _ _ _ _ hk, if_pos rfl]
  · exact hw.1
  · simpa using hk

/-- Witness of `set_then_get`. -/
theorem set_then_get_witness :
    (bitarray_new 70).wf ∧ 67 < (bitarray_new 70).bit_sz ∧
      ∃ ba1, bitarray_set (bitarray_new 70) 67 true = some ba1 ∧
        bitarray_get ba1 67 = some true :=
  ⟨by decide, by decide, set_then_get (bitarray_new 70) 67 true (by decide) (by decide)⟩

/-- C10: on an array that satisfies the representation invariant, for
`bit_index < bit_sz`, `bitarray_set(bit_index, value)` returns an array with the
same `bit_sz`, `int_sz` and number of words, in which every word other than
word `bit_index / 64` is unchanged, every bit of word `bit_index / 64` other
than the one under the mask `setbit[bit_index % 64] = 2^(63 - bit_index % 64)`
is unchanged, and `bitarray_get(j)` is unchanged for every `j` other than
`bit_index`. -/
theorem set_frame (ba : bitarray) (bit_index : Nat) (value : Bool) (hw : ba.wf)
    (hi : bit_index < ba.bit_sz) :
    ∃ ba1, bitarray_set ba bit_index value = some ba1 ∧
      ba1.bit_sz = ba.bit_sz ∧ ba1.int_sz = ba.int_sz ∧ ba1.buf.length = ba.buf.length ∧
      (∀ d, d ≠ bit_index / 64 → ba1.buf[d]? = ba.buf[d]?) ∧
      (∀ t, t ≠ 63 - bit_index % 64 →
        (ba1.buf.getD (bit_index / 64) 0).testBit t =
          (ba.buf.getD (bit_index / 64) 0).testBit t) ∧
      (∀ j, j ≠ bit_index → bitarray_get ba1 j = bitarray_get ba j) := by
  have hk := wf_index ba hw bit_index hi
  obtain ⟨h64, hlen, hsz, hb⟩ := hw
  refine ⟨_, set_eq ba bit_index value h64 hk, rfl, rfl, by simp, ?_, ?_, ?_⟩
  · intro d hd
    exact List.getElem?_set_ne (fun h => hd h.symm)
  · intro t ht
    dsimp only
    rw [List.getD_eq_getElem?_getD, List.getElem?_set_self hk]
    simp only [Option.getD_some]
    rw [set_word_testBit _ _ _ _ (by omega), if_neg ht]
    by_cases h : t < 64
    · simp [h]
    · have hlt : ba.buf.getD (bit_index / 64) 0 < 2 ^ 64 := by
        rw [List.getD_eq_getElem _ _ hk]
        exact hb _ (List.getElem_mem _)
      have : (ba.buf.getD (bit_index / 64) 0).testBit t = false := by
        apply Nat.testBit_lt_two_pow
        exact lt_of_lt_of_le hlt (Nat.pow_le_pow_right (by norm_num) (by omega))
      rw [this]
      simp
  · intro j hj
    by_cases hjl : j / 64 < ba.buf.length
    · rw [get_eq ba j h64 hjl, get_eq]
      · dsimp only
        rw [bit_set _ _ _ _ hk, if_neg hj]
      · exact h64
      · simpa using hjl
    · rw [get_none, get_none]
      · rw [h64]; omega
      · simp only [List.length_set]
        rw [h64]; omega

/-- Witness of `set_frame`. -/
theorem set_frame_witness :
    (bitarray_new 70).wf ∧ 67 < (bitarray_new 70).bit_sz ∧
      ∃ ba1, bitarray_set (bitarray_new 70) 67 true = some ba1 ∧
        ba1.bit_sz = (bitarray_new 70).bit_sz ∧ ba1.int_sz = (bitarray_new 70).int_sz ∧
        ba1.buf.length = (bitarray_new 70).buf.length ∧
        (∀ d, d ≠ 67 / 64 → ba1.buf[d]? = (bitarray_new 70).buf[d]?) ∧
        (∀ t, t ≠ 63 - 67 % 64 →
          (ba1.buf.getD (67 / 64) 0).testBit t =
            ((bitarray_new 70).buf.getD (67 / 64) 0).testBit t) ∧
        (∀ j, j ≠ 67 → bitarray_get ba1 j = bitarray_get (bitarray_new 70) j) :=
  ⟨by decide, by decide, set_frame (bitarray_new 70) 67 true (by decide) (by decide)⟩

/-! ## binary32: the quotient computed by `modulo` -/

theorem log2_loop_spec (fuel : Nat) : ∀ n, n ≤ fuel → 1 ≤ n →
    2 ^ log2_loop fuel n ≤ n ∧ n < 2 ^ (log2_loop fuel n + 1) := by
  induction fuel with
  | zero => intro n h1 h2; omega
  | succ f ih =>
    intro n h1 h2
    unfold log2_loop
    by_cases h : 2 ≤ n
    · rw [if_pos h]
      obtain ⟨ha, hb⟩ := ih (n / 2) (by omega) (by omega)
      rw [pow_succ, pow_succ, pow_succ]
      rw [pow_succ] at hb
      constructor <;> omega
    · rw [if_neg h]
      have : n = 1 := by omega
      subst this
      norm_num

theorem nlog2_spec (n : Nat) (h : 1 ≤ n) : 2 ^ nlog2 n ≤ n ∧ n < 2 ^ (nlog2 n + 1) :=
  log2_loop_spec n n (Nat.le_refl n) h

theorem rne_ge (n d : Nat) : n / d ≤ rne n d := by
  unfold rne
  split_ifs <;> omega

theorem rne_le (n d : Nat) : rne n d ≤ n / d + 1 := by
  unfold rne
  split_ifs <;> omega

theorem rne_eq_succ (n d : Nat) (h : rne n d ≠ n / d) : d ≤ 2 * (n % d) := by
  unfold rne at h
  split_ifs at h <;> omega

theorem rne_eq_floor (n d : Nat) (h : rne n d ≠ n / d + 1) : 2 * (n % d) ≤ d := by
  unfold rne at h
  split_ifs at h <;> omega

theorem rne_cases (n d : Nat) (hd : 0 < d) :
    ∃ F r : Nat, n = d * F + r ∧ r < d ∧ F ≤ rne n d ∧ rne n d ≤ F + 1 ∧
      (rne n d ≠ F → d ≤ 2 * r) ∧ (rne n d ≠ F + 1 → 2 * r ≤ d) :=
  ⟨n / d, n % d, (Nat.div_add_mod n d).symm, Nat.mod_lt n hd, rne_ge n d, rne_le n d,
    rne_eq_succ n d, rne_eq_floor n d⟩

theorem bracket_pos (n d X Y S F r m K : Int) (hd : 0 < d) (hY : 0 < Y) (hS0 : 0 < S)
    (heq : n * Y = X * d) (hS : Y < 2 * S) (hF : n * S = d * F + r) (hr0 : 0 ≤ r) (hr : r < d)
    (hge : F ≤ m) (hle : m ≤ F + 1) (hup : m ≠ F → d ≤ 2 * r)
    (hK1 : K * Y ≤ X) (hK2 : X < (K + 1) * Y) :
    K * S ≤ m ∧ m < (K + 1) * S := by
  have hKd1 : K * d ≤ n := by
    have : K * d * Y ≤ n * Y := by nlinarith
    exact le_of_mul_le_mul_right this hY
  have hKd2 : n < (K + 1) * d := by
    have : n * Y < (K + 1) * d * Y := by nlinarith
    exact lt_of_mul_lt_mul_right this (le_of_lt hY)
  have hFlo : K * S ≤ F := by
    have h1 : K * S * d < (F + 1) * d := by nlinarith
    have h2 := lt_of_mul_lt_mul_right h1 (le_of_lt hd)
    omega
  have hFhi : F < (K + 1) * S := by
    have h1 : F * d < (K + 1) * S * d := by nlinarith
    exact lt_of_mul_lt_mul_right h1 (le_of_lt hd)
  refine ⟨by omega, ?_⟩
  by_contra hcon
  push_neg at hcon
  have hmF : m ≠ F := by omega
  have h2r := hup hmF
  have hF1 : (K + 1) * S ≤ F + 1 := by omega
  have hE1 : 2 * d * ((K + 1) * S) ≤ 2 * (n * S) + d := by nlinarith
  have hE2 : 2 * d * S * ((K + 1) * Y) ≤ 2 * (X * d) * S + d * Y := by
    have := mul_le_mul_of_nonneg_right hE1 (le_of_lt hY)
    nlinarith
  have hE3 : 2 * d * S * (X + 1) ≤ 2 * d * S * ((K + 1) * Y) := by
    apply mul_le_mul_of_nonneg_left _ (by positivity)
    omega
  have hE4 : d * (2 * S) ≤ d * Y := by nlinarith
  have := le_of_mul_le_mul_left hE4 hd
  omega

theorem bracket_neg (n d X Y S F r m K : Int) (hd : 0 < d) (hY : 0 < Y) (hS0 : 0 < S)
    (heq : n * Y = X * d) (hS : Y < 2 * S) (hF : n * S = d * F + r) (hr0 : 0 ≤ r) (hr : r < d)
    (hge : F ≤ m) (hle : m ≤ F + 1) (hup : m ≠ F → d ≤ 2 * r) (hdn : m ≠ F + 1 → 2 * r ≤ d)
    (hK1 : K * Y ≤ -X) (hK2 : -X < (K + 1) * Y) :
    K * S ≤ -m ∧ -m < (K + 1) * S := by
  have hKd1 : K * d ≤ -n := by
    have : K * d * Y ≤ -n * Y := by nlinarith
    exact le_of_mul_le_mul_right this hY
  have hKd2 : -n < (K + 1) * d := by
    have : -n * Y < (K + 1) * d * Y := by nlinarith
    exact lt_of_mul_lt_mul_right this (le_of_lt hY)
  have hFhi : F ≤ -(K * S) := by
    have h1 : F * d ≤ -(K * S) * d := by nlinarith
    exact le_of_mul_le_mul_right h1 hd
  have hFlo : -(K * S) - S < F + 1 := by
    have h1 : (-(K * S) - S) * d < (F + 1) * d := by nlinarith
    exact lt_of_mul_lt_mul_right h1 (le_of_lt hd)
  have e2 : (K + 1) * S = K * S + S := by ring
  rw [e2]
  constructor
  · by_contra hcon
    push_neg at hcon
    have hF1 : F = -(K * S) := by omega
    have hr1 : r ≤ 0 := by nlinarith
    have hmF : m = F := by
      by_contra h
      have := hup h
      omega
    omega
  · by_contra hcon
    push_neg at hcon
    have hmF : m ≠ F + 1 := by omega
    have h2r := hdn hmF
    have hF1 : F = -(K * S) - S := by omega
    have hE1 : 2 * (n * S) ≤ 2 * d * (-(K * S) - S) + d := by nlinarith
    have hE2 : 2 * (X * d) * S ≤ 2 * d * S * (-(K + 1) * Y) + d * Y := by
      have := mul_le_mul_of_nonneg_right hE1 (le_of_lt hY)
      nlinarith
    have hE3 : 2 * d * S * (-(K + 1) * Y) + 2 * d * S ≤ 2 * d * S * X := by
      have h0 : -(K + 1) * Y + 1 ≤ X := by linarith
      have := mul_le_mul_of_nonneg_left h0 (show (0 : Int) ≤ 2 * d * S by positivity)
      nlinarith
    have hE4 : d * (2 * S) ≤ d * Y := by nlinarith
    have := le_of_mul_le_mul_left hE4 hd
    omega

theorem ilog2_bounds (a d X Y : Nat) (ha : 0 < a) (hd : 0 < d) (hY : 0 < Y)
    (heq : a * Y = X * d) (hX : X < 2 ^ 24) (hYb : Y < 2 ^ 64) :
    ∃ s : Nat, max (ilog2 a d - 23) (-149) = -(s : Int) ∧ Y < 2 * 2 ^ s := by
  have hXpos : 0 < X := by
    rcases Nat.eq_zero_or_pos X with h | h
    · subst h
      simp at heq
      omega
    · exact h
  unfold ilog2
  by_cases hda : d ≤ a
  · rw [if_pos hda]
    have h1 : 1 ≤ a / d := (Nat.le_div_iff_mul_le hd).2 (by simpa using hda)
    obtain ⟨hlo, -⟩ := nlog2_spec (a / d) h1
    generalize nlog2 (a / d) = L at hlo
    have hlo2 : 2 ^ L * d ≤ a := (Nat.le_div_iff_mul_le hd).1 hlo
    have hYX : 2 ^ L * Y ≤ X := by
      have : 2 ^ L * Y * d ≤ X * d := by
        calc 2 ^ L * Y * d = 2 ^ L * d * Y := by ring
          _ ≤ a * Y := Nat.mul_le_mul_right Y hlo2
          _ = X * d := heq
      exact Nat.le_of_mul_le_mul_right this hd
    have hL : L ≤ 23 := by
      by_contra hcon
      have : 2 ^ 24 ≤ 2 ^ L := Nat.pow_le_pow_right (by norm_num) (by omega)
      have : 2 ^ 24 * 1 ≤ 2 ^ L * Y := Nat.mul_le_mul this hY
      omega
    refine ⟨23 - L, by omega, ?_⟩
    have hp : 2 ^ L * (2 * 2 ^ (23 - L)) = 2 ^ 24 := by
      rw [← pow_succ', ← pow_add]
      congr 1
      omega
    have : 2 ^ L * Y < 2 ^ L * (2 * 2 ^ (23 - L)) := by omega
    exact Nat.lt_of_mul_lt_mul_left this
  · rw [if_neg hda]
    have h1 : 1 ≤ (d - 1) / a := (Nat.le_div_iff_mul_le ha).2 (by omega)
    obtain ⟨hlo, hhi⟩ := nlog2_spec ((d - 1) / a) h1
    generalize nlog2 ((d - 1) / a) = L at hlo hhi
    have hlo2 : 2 ^ L * a ≤ d - 1 := (Nat.le_div_iff_mul_le ha).1 hlo
    have hhi2 : d - 1 < 2 ^ (L + 1) * a := (Nat.div_lt_iff_lt_mul ha).1 hhi
    have hL : L < 64 := by
      by_contra hcon
      have h64 : 2 ^ 64 ≤ 2 ^ L := Nat.pow_le_pow_right (by norm_num) (by omega)
      have : 2 ^ L * X * d < Y * d := by
        calc 2 ^ L * X * d = 2 ^ L * (X * d) := by ring
          _ = 2 ^ L * (a * Y) := by rw [heq]
          _ = 2 ^ L * a * Y := by ring
          _ < d * Y := Nat.mul_lt_mul_of_pos_right (by omega) hY
          _ = Y * d := by ring
      have h2 : 2 ^ L * X < Y := Nat.lt_of_mul_lt_mul_right this
      have : 2 ^ 64 * 1 ≤ 2 ^ L * X := Nat.mul_le_mul h64 hXpos
      omega
    refine ⟨23 + (L + 1), by push_cast; omega, ?_⟩
    have hYX : Y * d ≤ 2 ^ (L + 1) * X * d := by
      calc Y * d = d * Y := by ring
        _ ≤ 2 ^ (L + 1) * a * Y := Nat.mul_le_mul_right Y (by omega)
        _ = 2 ^ (L + 1) * (a * Y) := by ring
        _ = 2 ^ (L + 1) * (X * d) := by rw [heq]
        _ = 2 ^ (L + 1) * X * d := by ring
    have hYX2 : Y ≤ 2 ^ (L + 1) * X := Nat.le_of_mul_le_mul_right hYX hd
    have hp : 2 * 2 ^ (23 + (L + 1)) = 2 ^ (L + 1) * 2 ^ 24 := by
      rw [← pow_succ', ← pow_add]
      congr 1
      omega
    rw [hp]
    calc Y ≤ 2 ^ (L + 1) * X := hYX2
      _ < 2 ^ (L + 1) * 2 ^ 24 := Nat.mul_lt_mul_of_pos_left hX (by positivity)

theorem ediv_of_bracket (a S K : Int) (hS : 0 < S) (h : K * S ≤ a ∧ a < (K + 1) * S) :
    a / S = K := by
  apply le_antisymm
  · have : a / S < K + 1 := (Int.ediv_lt_iff_lt_mul hS).2 h.2
    omega
  · exact (Int.le_ediv_iff_mul_le hS).2 h.1

theorem round_f32_eq (n : Int) (d X Y : Nat) (hn : n ≠ 0) (hd : 0 < d) (hY : 0 < Y)
    (heq : n.natAbs * Y = X * d) (hX : X < 2 ^ 24) (hYb : Y < 2 ^ 64) :
    ∃ s : Nat, round_f32 n d = ⟨n.sign * (rne (n.natAbs * 2 ^ s) d : Nat), -(s : Int)⟩ ∧
      Y < 2 * 2 ^ s := by
  have ha : 0 < n.natAbs := Int.natAbs_pos.2 hn
  obtain ⟨s, hs, hYs⟩ := ilog2_bounds n.natAbs d X Y ha hd hY heq hX hYb
  refine ⟨s, ?_, hYs⟩
  unfold round_f32
  rw [if_neg hn]
  simp only [hs]
  rcases Nat.eq_zero_or_pos s with h0 | hpos
  · subst h0
    simp
  · have : ¬ (0 : Int) ≤ -(s : Int) := by omega
    rw [if_neg this]
    simp

/-- When `n / d` equals `± X / Y` with `X < 2^24`, rounding `n / d` to binary32
does not move it across an integer: `floorf` of the rounded value is the floor
of the exact quotient. -/
theorem floorf_round (n : Int) (d X Y : Nat) (hn : n ≠ 0) (hd : 0 < d) (hY : 0 < Y)
    (heq : n.natAbs * Y = X * d) (hX : X < 2 ^ 24) (hYb : Y < 2 ^ 64) :
    floorf (round_f32 n d) = ⟨(n.sign * (X : Int)) / (Y : Int), 0⟩ := by
  obtain ⟨s, hr, hYs⟩ := round_f32_eq n d X Y hn hd hY heq hX hYb
  rw [hr]
  obtain ⟨F, r, hF, hrd, hge, hle, hup, hdn⟩ := rne_cases (n.natAbs * 2 ^ s) d hd
  generalize rne (n.natAbs * 2 ^ s) d = m at hge hle hup hdn
  have hfl : floorf ⟨n.sign * (m : Int), -(s : Int)⟩ = ⟨(n.sign * (m : Int)) / ((2 ^ s : Nat) : Int), 0⟩ := by
    unfold floorf
    rcases Nat.eq_zero_or_pos s with h0 | hpos
    · subst h0
      simp
    · have : ¬ (0 : Int) ≤ -(s : Int) := by omega
      simp only [if_neg this]
      simp
  rw [hfl]
  congr 1
  have hSpos : (0 : Int) < ((2 ^ s : Nat) : Int) := by positivity
  have hYpos : (0 : Int) < (Y : Int) := by exact_mod_cast hY
  have hdpos : (0 : Int) < (d : Int) := by exact_mod_cast hd
  have heq' : (n.natAbs : Int) * Y = X * d := by exact_mod_cast heq
  have hF' : (n.natAbs : Int) * ((2 ^ s : Nat) : Int) = d * F + r := by exact_mod_cast hF
  have hS' : (Y : Int) < 2 * ((2 ^ s : Nat) : Int) := by exact_mod_cast hYs
  have hr0 : (0 : Int) ≤ r := by positivity
  have hrd' : (r : Int) < d := by exact_mod_cast hrd
  have hge' : (F : Int) ≤ m := by exact_mod_cast hge
  have hle' : (m : Int) ≤ F + 1 := by exact_mod_cast hle
  have hup' : (m : Int) ≠ F → (d : Int) ≤ 2 * r := by
    intro h
    have := hup (by intro h2; apply h; exact_mod_cast h2)
    exact_mod_cast this
  have hdn' : (m : Int) ≠ F + 1 → 2 * (r : Int) ≤ d := by
    intro h
    have := hdn (by intro h2; apply h; exact_mod_cast h2)
    exact_mod_cast this
  rcases lt_or_gt_of_ne hn with hneg | hpos
  · rw [Int.sign_eq_neg_one_of_neg hneg]
    apply ediv_of_bracket _ _ _ hSpos
    have hK1 : (-1 * (X : Int)) / Y * Y ≤ -X := by
      have := Int.ediv_mul_le (-1 * (X : Int)) (ne_of_gt hYpos)
      omega
    have hK2 : -(X : Int) < ((-1 * (X : Int)) / Y + 1) * Y := by
      have := Int.lt_ediv_add_one_mul_self (-1 * (X : Int)) hYpos
      omega
    have := bracket_neg _ _ _ _ _ _ _ _ _ hdpos hYpos hSpos heq' hS' hF' hr0 hrd' hge' hle' hup'
      hdn' hK1 hK2
    constructor
    · have := this.1; omega
    · have := this.2; omega
  · rw [Int.sign_eq_one_of_pos hpos]
    apply ediv_of_bracket _ _ _ hSpos
    have hK1 : (1 * (X : Int)) / Y * Y ≤ X := by
      have := Int.ediv_mul_le (1 * (X : Int)) (ne_of_gt hYpos)
      omega
    have hK2 : (X : Int) < ((1 * (X : Int)) / Y + 1) * Y := by
      have := Int.lt_ediv_add_one_mul_self (1 * (X : Int)) hYpos
      omega
    have := bracket_pos _ _ _ _ _ _ _ _ _ hdpos hYpos hSpos heq' hS' hF' hr0 hrd' hge' hle' hup'
      hK1 hK2
    constructor
    · have := this.1; omega
    · have := this.2; omega

theorem floorf_round_scaled (x : Int) (c d Y : Nat) (hc : 0 < c) (hx : x ≠ 0)
    (hxb : x.natAbs < 2 ^ 24) (hY : 0 < Y) (hYb : Y < 2 ^ 64) (heq : c * Y = d) :
    floorf (round_f32 (x * (c : Int)) d) = ⟨x / (Y : Int), 0⟩ := by
  have hc' : (c : Int) ≠ 0 := by exact_mod_cast (Nat.pos_iff_ne_zero.1 hc)
  have hn : x * (c : Int) ≠ 0 := mul_ne_zero hx hc'
  have hd : 0 < d := by rw [← heq]; exact Nat.mul_pos hc hY
  have habs : (x * (c : Int)).natAbs = x.natAbs * c := by
    rw [Int.natAbs_mul, Int.natAbs_ofNat]
  have heq2 : (x * (c : Int)).natAbs * Y = x.natAbs * d := by
    rw [habs, ← heq]; ring
  rw [floorf_round _ _ _ _ hn hd hY heq2 hxb hYb]
  have hs : (x * (c : Int)).sign = x.sign := by
    rw [Int.sign_mul, Int.sign_eq_one_of_pos (show (0 : Int) < (c : Int) by exact_mod_cast hc),
      mul_one]
  rw [hs, Int.sign_mul_natAbs]

theorem rne_one (n : Nat) : rne n 1 = n := by
  have h : n % 1 = 0 := Nat.mod_one n
  unfold rne
  rw [h]
  simp

theorem of_int_small (x : Int) (hx : x ≠ 0) (hxb : x.natAbs < 2 ^ 24) :
    ∃ s : Nat, float.of_int x = ⟨x * ((2 ^ s : Nat) : Int), -(s : Int)⟩ := by
  obtain ⟨s, hs, -⟩ := round_f32_eq x 1 x.natAbs 1 hx (by norm_num) (by norm_num) rfl hxb
    (by norm_num)
  refine ⟨s, ?_⟩
  unfold float.of_int
  rw [hs, rne_one]
  congr 1
  rw [Nat.cast_mul, ← mul_assoc, Int.sign_mul_natAbs]

theorem of_int_large (y : Nat) (hy : 2 ^ 24 ≤ y) (hy2 : y < 2 ^ 31) :
    ∃ m t : Nat, float.of_int (y : Int) = ⟨(m : Int), (t : Int)⟩ ∧ 0 < t ∧ 0 < m ∧
      2 ^ 24 ≤ m * 2 ^ t ∧ m * 2 ^ t < 2 ^ 64 := by
  have hy0 : (y : Int) ≠ 0 := by
    have : 0 < y := lt_of_lt_of_le (by norm_num) hy
    exact_mod_cast (Nat.pos_iff_ne_zero.1 this)
  obtain ⟨hlo, hhi⟩ := nlog2_spec y (by omega)
  have hL1 : 24 ≤ nlog2 y := by
    by_contra hcon
    have : 2 ^ (nlog2 y + 1) ≤ 2 ^ 24 := Nat.pow_le_pow_right (by norm_num) (by omega)
    omega
  have hL2 : nlog2 y ≤ 30 := by
    by_contra hcon
    have : 2 ^ 31 ≤ 2 ^ nlog2 y := Nat.pow_le_pow_right (by norm_num) (by omega)
    omega
  have hq : max (ilog2 y 1 - 23) (-149) = ((nlog2 y - 23 : Nat) : Int) := by
    unfold ilog2
    rw [if_pos (by omega), Nat.div_one]
    omega
  have hm1 : 2 ^ 23 ≤ y / 2 ^ (nlog2 y - 23) := by
    rw [Nat.le_div_iff_mul_le (by positivity), ← pow_add]
    have : 23 + (nlog2 y - 23) = nlog2 y := by omega
    rw [this]
    exact hlo
  have hp : 2 ^ (nlog2 y - 23) ≤ 2 ^ 7 := Nat.pow_le_pow_right (by norm_num) (by omega)
  refine ⟨rne y (2 ^ (nlog2 y - 23)), nlog2 y - 23, ?_, by omega, ?_, ?_, ?_⟩
  · unfold float.of_int round_f32
    rw [if_neg hy0]
    simp only [Int.natAbs_ofNat, hq]
    rw [if_pos (by positivity), Int.sign_eq_one_of_pos (by positivity)]
    simp
  · have := rne_ge y (2 ^ (nlog2 y - 23))
    omega
  · have h1 := rne_ge y (2 ^ (nlog2 y - 23))
    have h2 : 2 ^ 23 * 2 ^ (nlog2 y - 23) ≤ rne y (2 ^ (nlog2 y - 23)) * 2 ^ (nlog2 y - 23) :=
      Nat.mul_le_mul_right _ (by omega)
    have h3 : 2 ^ 23 * 2 ^ 1 ≤ 2 ^ 23 * 2 ^ (nlog2 y - 23) :=
      Nat.mul_le_mul_left _ (Nat.pow_le_pow_right (by norm_num) (by omega))
    omega
  · have h1 := rne_le y (2 ^ (nlog2 y - 23))
    have h2 : y / 2 ^ (nlog2 y - 23) * 2 ^ (nlog2 y - 23) ≤ y := Nat.div_mul_le_self _ _
    have h3 : rne y (2 ^ (nlog2 y - 23)) * 2 ^ (nlog2 y - 23) ≤
        (y / 2 ^ (nlog2 y - 23) + 1) * 2 ^ (nlog2 y - 23) := Nat.mul_le_mul_right _ h1
    rw [Nat.add_mul] at h3
    omega

theorem floorf_div_zero (fy : float) : floorf (float.div ⟨0, 0⟩ fy) = ⟨0, 0⟩ := by
  unfold float.div
  simp [round_f32, floorf]

theorem floorf_div_small (x : Int) (y sx sy : Nat) (hx : x ≠ 0) (hxb : x.natAbs < 2 ^ 24)
    (hy : 0 < y) (hyb : y < 2 ^ 64) :
    floorf (float.div ⟨x * ((2 ^ sx : Nat) : Int), -(sx : Int)⟩
      ⟨(y : Int) * ((2 ^ sy : Nat) : Int), -(sy : Int)⟩) = ⟨x / (y : Int), 0⟩ := by
  have hpos : (0 : Int) < (y : Int) * ((2 ^ sy : Nat) : Int) := by positivity
  have habs : ((y : Int) * ((2 ^ sy : Nat) : Int)).natAbs = y * 2 ^ sy := by
    rw [← Nat.cast_mul, Int.natAbs_ofNat]
  unfold float.div
  dsimp only
  rw [Int.sign_eq_one_of_pos hpos, habs, mul_one]
  by_cases h : sx ≤ sy
  · have he : (0 : Int) ≤ -(sx : Int) - -(sy : Int) := by omega
    have het : (-(sx : Int) - -(sy : Int)).toNat = sy - sx := by omega
    rw [if_pos he, if_pos he, het, mul_one]
    have hN : x * ((2 ^ sx : Nat) : Int) * 2 ^ (sy - sx) = x * ((2 ^ sy : Nat) : Int) := by
      push_cast
      rw [mul_assoc, ← pow_add]
      congr 2
      omega
    rw [hN]
    exact floorf_round_scaled x (2 ^ sy) (y * 2 ^ sy) y (by positivity) hx hxb hy hyb
      (by ring)
  · have he : ¬ (0 : Int) ≤ -(sx : Int) - -(sy : Int) := by omega
    have het : (-(-(sx : Int) - -(sy : Int))).toNat = sx - sy := by omega
    rw [if_neg he, if_neg he, het, mul_one]
    apply floorf_round_scaled x (2 ^ sx) (y * 2 ^ sy * 2 ^ (sx - sy)) y (by positivity) hx hxb
      hy hyb
    rw [mul_assoc, ← pow_add]
    have : sy + (sx - sy) = sx := by omega
    rw [this]
    ring

theorem floorf_div_large (x : Int) (sx m t : Nat) (hx : x ≠ 0) (hxb : x.natAbs < 2 ^ 24)
    (hm : 0 < m) (ht : 0 < t) (hYb : m * 2 ^ t < 2 ^ 64) :
    floorf (float.div ⟨x * ((2 ^ sx : Nat) : Int), -(sx : Int)⟩ ⟨(m : Int), (t : Int)⟩) =
      ⟨x / ((m * 2 ^ t : Nat) : Int), 0⟩ := by
  have hpos : (0 : Int) < (m : Int) := by exact_mod_cast hm
  unfold float.div
  dsimp only
  have he : ¬ (0 : Int) ≤ -(sx : Int) - (t : Int) := by omega
  have het : (-(-(sx : Int) - (t : Int))).toNat = sx + t := by omega
  rw [Int.sign_eq_one_of_pos hpos, Int.natAbs_ofNat, if_neg he, if_neg he, het, mul_one, mul_one]
  apply floorf_round_scaled x (2 ^ sx) (m * 2 ^ (sx + t)) (m * 2 ^ t) (by positivity) hx hxb
    (by positivity) hYb
  rw [pow_add]
  ring

theorem ediv_of_abs_lt (x Y : Int) (h : (x.natAbs : Int) < Y) :
    x / Y = if 0 ≤ x then 0 else -1 := by
  have hY : 0 < Y := by omega
  apply ediv_of_bracket _ _ _ hY
  split_ifs <;> constructor <;> omega

theorem of_int_zero : float.of_int 0 = ⟨0, 0⟩ := by
  simp [float.of_int, round_f32]

theorem floorf_div_of_int (x : Int) (y : Nat) (hxb : x.natAbs < 2 ^ 24) (hy0 : 0 < y)
    (hy : y < 2 ^ 31) :
    floorf (float.div (float.of_int x) (float.of_int (y : Int))) = ⟨x / (y : Int), 0⟩ := by
  by_cases hx : x = 0
  · subst hx
    rw [of_int_zero, floorf_div_zero]
    simp
  · obtain ⟨sx, hsx⟩ := of_int_small x hx hxb
    rw [hsx]
    by_cases hys : y < 2 ^ 24
    · have hy1 : (y : Int) ≠ 0 := by omega
      obtain ⟨sy, hsy⟩ := of_int_small (y : Int) hy1 (by simpa using hys)
      rw [hsy]
      exact floorf_div_small x y sx sy hx hxb hy0 (by omega)
    · obtain ⟨m, t, hmt, ht, hm, hlo, hhi⟩ := of_int_large y (by omega) hy
      rw [hmt, floorf_div_large x sx m t hx hxb hm ht hhi]
      congr 1
      rw [ediv_of_abs_lt x _ (by omega), ediv_of_abs_lt x _ (by omega)]

/-- For `|x| < 2^24` and `0 < y < 2^31` the `float` computation of `modulo` is
exact: it returns the floor-mod `x mod y`. -/
theorem modulo_small (x : Int) (y : Nat) (hxb : x.natAbs < 2 ^ 24) (hy0 : 0 < y)
    (hy : y < 2 ^ 31) : modulo x (y : Int) = some (x % (y : Int)) := by
  have hy1 : (y : Int) ≠ 0 := by omega
  have hypos : (0 : Int) < (y : Int) := by omega
  have h1 : (y : Int) * (x / (y : Int)) + x % (y : Int) = x := Int.ediv_add_emod x y
  have h2 : 0 ≤ x % (y : Int) := Int.emod_nonneg x hy1
  have h3 : x % (y : Int) < (y : Int) := Int.emod_lt_of_pos x hypos
  have hk : -(2 ^ 24) ≤ x / (y : Int) ∧ x / (y : Int) < 2 ^ 24 ∧
      -(2 ^ 31) ≤ (y : Int) * (x / (y : Int)) := by
    have hx1 : -(2 ^ 24) < x ∧ x < 2 ^ 24 := by omega
    by_cases hys : y ≤ 2 ^ 24
    · generalize x / (y : Int) = k at h1
      refine ⟨?_, ?_, by omega⟩
      · by_contra hcon
        push_neg at hcon
        have : ((y : Int) - 1) * (k + 1) ≤ 0 :=
          mul_nonpos_of_nonneg_of_nonpos (by omega) (by omega)
        nlinarith [hx1.1, hx1.2]
      · by_contra hcon
        push_neg at hcon
        have : 0 ≤ ((y : Int) - 1) * k := mul_nonneg (by omega) (by omega)
        nlinarith [hx1.1, hx1.2]
    · rw [ediv_of_abs_lt x _ (by omega)]
      split_ifs <;> omega
  unfold modulo
  rw [if_neg hy1, floorf_div_of_int x y hxb hy0 hy]
  have hto : float.to_int ⟨x / (y : Int), 0⟩ = some (x / (y : Int)) := by
    simp only [float.to_int, int_ok]
    norm_num
    omega
  have ht : int_ok ((y : Int) * (x / (y : Int))) = some ((y : Int) * (x / (y : Int))) := by
    unfold int_ok
    rw [if_pos (by omega)]
  have hr : int_ok (x - (y : Int) * (x / (y : Int))) = some (x % (y : Int)) := by
    unfold int_ok
    rw [if_pos (by omega)]
    congr 1
    omega
  simp [hto, ht, hr]

/-! ## The loops of `bitarray_rotate` -/

theorem to_int_small (n : Int) (h1 : -(2 ^ 31) ≤ n) (h2 : n < 2 ^ 31) : to_int n = n := by
  unfold to_int; omega

theorem to_size_small (n : Nat) (h : n < 2 ^ 64) : to_size (n : Int) = n := by
  unfold to_size; omega

theorem rd_nat (l : List Nat) (i : Nat) : rd l (i : Int) = l[i]? := by
  simp [rd]

theorem wr_nat (l : List Nat) (i : Nat) (v : Nat) (h : i < l.length) :
    wr l (i : Int) v = some (l.set i v) := by
  simp [wr, h]

theorem bit_clear (buf : List Nat) (k j : Nat) (hk : k / 64 < buf.length) :
    bit (clear_bit buf k) j = if j = k then false else bit buf j := by
  have h := bit_set buf k j false hk
  simpa [clear_bit] using h

theorem bit_raise (buf : List Nat) (k j : Nat) (hk : k / 64 < buf.length) :
    bit (raise_bit buf k) j = if j = k then true else bit buf j := by
  unfold bit raise_bit
  by_cases hd : j / 64 = k / 64
  · rw [hd, List.getD_eq_getElem?_getD, List.getElem?_set_self hk]
    simp only [Option.getD_some]
    rw [Nat.testBit_or, Nat.testBit_two_pow]
    by_cases hjk : j = k
    · subst hjk
      simp
    · have hne : ¬ (63 - k % 64 = 63 - j % 64) := by omega
      simp [hne, hjk, List.getD_eq_getElem?_getD]
  · have hjk : ¬ j = k := fun h => hd (by rw [h])
    have hd2 : ¬ k / 64 = j / 64 := fun h => hd h.symm
    rw [List.getD_eq_getElem?_getD, List.getElem?_set_ne hd2]
    simp [hjk, List.getD_eq_getElem?_getD]

theorem length_clear (buf : List Nat) (k : Nat) : (clear_bit buf k).length = buf.length := by
  simp [clear_bit]

theorem length_raise (buf : List Nat) (k : Nat) : (raise_bit buf k).length = buf.length := by
  simp [raise_bit]

theorem length_swap (buf : List Nat) (a b : Nat) : (swap_bits buf a b).length = buf.length := by
  unfold swap_bits
  split_ifs <;> simp [length_clear, length_raise]

theorem bit_swap (buf : List Nat) (a b k : Nat) (ha : a / 64 < buf.length)
    (hb : b / 64 < buf.length) :
    bit (swap_bits buf a b) k =
      if k = a then bit buf b else if k = b then bit buf a else bit buf k := by
  have hb1 : b / 64 < (clear_bit buf a).length := by rw [length_clear]; exact hb
  have hb2 : b / 64 < (raise_bit buf a).length := by rw [length_raise]; exact hb
  cases ea : bit buf a <;> cases eb : bit buf b
  · simp only [swap_bits, ea, eb]
    by_cases h1 : k = a
    · simp [h1, ea]
    · by_cases h2 : k = b
      · simp [h2, eb]
      · simp [h1, h2]
  · have hab : a ≠ b := by
      intro h; rw [h] at ea; rw [ea] at eb; exact Bool.noConfusion eb
    simp only [swap_bits, ea, eb]
    simp only [and_self, and_false, if_false, if_true, Bool.false_eq_true, false_and]
    rw [bit_clear _ _ _ hb2, bit_raise _ _ _ ha]
    by_cases h1 : k = a
    · have : ¬ k = b := by omega
      simp [h1, hab]
    · by_cases h2 : k = b
      · simp [h2, hab.symm]
      · simp [h1, h2]
  · have hab : a ≠ b := by
      intro h; rw [h] at ea; rw [ea] at eb; exact Bool.noConfusion eb
    simp only [swap_bits, ea, eb]
    simp only [and_self, if_true]
    rw [bit_raise _ _ _ hb1, bit_clear _ _ _ ha]
    by_cases h1 : k = a
    · simp [h1, hab]
    · by_cases h2 : k = b
      · simp [h2, hab.symm]
      · simp [h1, h2]
  · simp only [swap_bits, ea, eb]
    by_cases h1 : k = a
    · simp [h1, ea]
    · by_cases h2 : k = b
      · simp [h2, eb]
      · simp [h1, h2]

theorem and_two_pow_eq_zero (w k : Nat) : w &&& 2 ^ k = 0 ↔ w.testBit k = false := by
  have h := and_two_pow_ne_zero w k
  cases ht : w.testBit k
  · rw [ht] at h
    simpa using h
  · rw [ht] at h
    simpa using h

theorem idx_word (a : Nat) (ha : a < 2 ^ 31) :
    to_int ((to_size (a : Int) : Int) / 64) = ((a / 64 : Nat) : Int) := by
  rw [to_size_small a (by omega)]
  unfold to_int
  omega

theorem idx_mask (a : Nat) (ha : a < 2 ^ 31) :
    to_int ((to_size (a : Int) : Int) % 64) = ((a % 64 : Nat) : Int) := by
  rw [to_size_small a (by omega)]
  unfold to_int
  omega

theorem rd_word (buf : List Nat) (a : Nat) (ha : a < 2 ^ 31) (hl : a / 64 < buf.length) :
    rd buf (to_int ((to_size (a : Int) : Int) / 64)) = some (buf.getD (a / 64) 0) := by
  rw [idx_word a ha, rd_nat, List.getD_eq_getElem?_getD, List.getElem?_eq_getElem hl]
  rfl

theorem rd_mask (a : Nat) (ha : a < 2 ^ 31) :
    rd setbit (to_int ((to_size (a : Int) : Int) % 64)) = some (2 ^ (63 - a % 64)) := by
  rw [idx_mask a ha, rd_nat, setbit_get _ (Nat.mod_lt _ (by norm_num))]

theorem wr_word (buf : List Nat) (a v : Nat) (ha : a < 2 ^ 31) (hl : a / 64 < buf.length) :
    wr buf (to_int ((to_size (a : Int) : Int) / 64)) v = some (buf.set (a / 64) v) := by
  rw [idx_word a ha, wr_nat _ _ _ hl]

theorem swap_bits_ff (buf : List Nat) (a b : Nat) (h : ¬ (bit buf a = true ∧ bit buf b = false))
    (h2 : ¬ (bit buf a = false ∧ bit buf b = true)) : swap_bits buf a b = buf := by
  unfold swap_bits
  rw [if_neg h, if_neg h2]

/-- The loop body at cursors `a`, `b` below `2^31` exchanges bit `a` and bit `b`. -/
theorem swap_step_eq (buf : List Nat) (a b : Nat) (ha : a < 2 ^ 31) (hb : b < 2 ^ 31)
    (hla : a / 64 < buf.length) (hlb : b / 64 < buf.length) :
    swap_step buf 64 (a : Int) (b : Int) = some (swap_bits buf a b) := by
  have hlb1 : b / 64 < (buf.set (a / 64) (buf.getD (a / 64) 0 &&& cpl (2 ^ (63 - a % 64)))).length := by
    simpa using hlb
  have hlb2 : b / 64 < (buf.set (a / 64) (buf.getD (a / 64) 0 ||| 2 ^ (63 - a % 64))).length := by
    simpa using hlb
  have hA : (buf.getD (a / 64) 0 &&& 2 ^ (63 - a % 64) = 0) ↔ bit buf a = false :=
    and_two_pow_eq_zero _ _
  have hB : (buf.getD (b / 64) 0 &&& 2 ^ (63 - b % 64) = 0) ↔ bit buf b = false :=
    and_two_pow_eq_zero _ _
  have hA' : (buf.getD (a / 64) 0 &&& 2 ^ (63 - a % 64) ≠ 0) ↔ bit buf a = true := by
    rw [ne_eq, hA]; simp
  have hB' : (buf.getD (b / 64) 0 &&& 2 ^ (63 - b % 64) ≠ 0) ↔ bit buf b = true := by
    rw [ne_eq, hB]; simp
  unfold swap_step
  rw [if_neg (by norm_num)]
  simp only [Nat.cast_ofNat]
  rw [rd_word buf a ha hla, rd_word buf b hb hlb, rd_mask a ha, rd_mask b hb]
  show Option.bind _ _ = _
  rw [Option.some_bind]
  show Option.bind _ _ = _
  rw [Option.some_bind]
  show Option.bind _ _ = _
  rw [Option.some_bind]
  show Option.bind _ _ = _
  rw [Option.some_bind]
  by_cases d1 : buf.getD (a / 64) 0 &&& 2 ^ (63 - a % 64) ≠ 0 ∧
      buf.getD (b / 64) 0 &&& 2 ^ (63 - b % 64) = 0
  · rw [if_pos d1]
    have c1 : bit buf a = true ∧ bit buf b = false := ⟨hA'.1 d1.1, hB.1 d1.2⟩
    show Option.bind _ _ = _
    rw [Option.some_bind]
    show Option.bind _ _ = _
    rw [Option.some_bind, wr_word buf a _ ha hla]
    show Option.bind _ _ = _
    rw [Option.some_bind, rd_word _ b hb hlb1]
    show Option.bind _ _ = _
    rw [Option.some_bind]
    show Option.bind _ _ = _
    rw [Option.some_bind, wr_word _ b _ hb hlb1]
    unfold swap_bits
    rw [if_pos c1]
    rfl
  · rw [if_neg d1]
    have c1 : ¬ (bit buf a = true ∧ bit buf b = false) := fun c => d1 ⟨hA'.2 c.1, hB.2 c.2⟩
    by_cases d2 : buf.getD (a / 64) 0 &&& 2 ^ (63 - a % 64) = 0 ∧
        buf.getD (b / 64) 0 &&& 2 ^ (63 - b % 64) ≠ 0
    · rw [if_pos d2]
      have c2 : bit buf a = false ∧ bit buf b = true := ⟨hA.1 d2.1, hB'.1 d2.2⟩
      show Option.bind _ _ = _
      rw [Option.some_bind]
      show Option.bind _ _ = _
      rw [Option.some_bind, wr_word buf a _ ha hla]
      show Option.bind _ _ = _
      rw [Option.some_bind, rd_word _ b hb hlb2]
      show Option.bind _ _ = _
      rw [Option.some_bind]
      show Option.bind _ _ = _
      rw [Option.some_bind, wr_word _ b _ hb hlb2]
      unfold swap_bits
      rw [if_neg c1, if_pos c2]
      rfl
    · have c2 : ¬ (bit buf a = false ∧ bit buf b = true) := fun c => d2 ⟨hA.2 c.1, hB'.2 c.2⟩
      rw [if_neg d2, swap_bits_ff buf a b c1 c2]

theorem words_clear (buf : List Nat) (k : Nat) (h : ∀ w ∈ buf, w < 2 ^ 64) :
    ∀ w ∈ clear_bit buf k, w < 2 ^ 64 := by
  intro w hw
  rcases List.mem_or_eq_of_mem_set hw with h1 | h1
  · exact h w h1
  · rw [h1]
    apply Nat.and_lt_two_pow
    unfold cpl
    have : 0 < 2 ^ 64 := by norm_num
    omega

theorem words_raise (buf : List Nat) (k : Nat) (h : ∀ w ∈ buf, w < 2 ^ 64)
    (hk : k / 64 < buf.length) : ∀ w ∈ raise_bit buf k, w < 2 ^ 64 := by
  intro w hw
  rcases List.mem_or_eq_of_mem_set hw with h1 | h1
  · exact h w h1
  · rw [h1]
    apply Nat.or_lt_two_pow
    · rw [List.getD_eq_getElem _ _ hk]
      exact h _ (List.getElem_mem _)
    · exact Nat.pow_lt_pow_right (by norm_num) (by omega)

theorem words_swap (buf : List Nat) (a b : Nat) (h : ∀ w ∈ buf, w < 2 ^ 64)
    (ha : a / 64 < buf.length) (hb : b / 64 < buf.length) :
    ∀ w ∈ swap_bits buf a b, w < 2 ^ 64 := by
  unfold swap_bits
  split_ifs
  · exact words_raise _ _ (words_clear _ _ h) (by rw [length_clear]; exact hb)
  · exact words_clear _ _ (words_raise _ _ h ha)
  · exact h

/-- One loop of `bitarray_rotate` with cursors `a`, `b` below `2^31` reverses
the bits of `[a, b]` and leaves the other bits of the buffer as they were. -/
theorem reverse_loop_spec (fuel : Nat) : ∀ (buf : List Nat) (a b : Nat), b < 2 ^ 31 →
    b / 64 < buf.length → b - a ≤ fuel →
    ∃ buf1, reverse_loop fuel buf 64 (a : Int) (b : Int) = some buf1 ∧
      buf1.length = buf.length ∧
      ((∀ w ∈ buf, w < 2 ^ 64) → ∀ w ∈ buf1, w < 2 ^ 64) ∧
      ∀ k, bit buf1 k = if a ≤ k ∧ k ≤ b then bit buf (a + b - k) else bit buf k := by
  induction fuel with
  | zero =>
    intro buf a b hb hl hf
    refine ⟨buf, ?_, rfl, fun h => h, ?_⟩
    · unfold reverse_loop
      rw [if_neg (by omega)]
    · intro k
      split_ifs with h
      · have : a + b - k = k := by omega
        rw [this]
      · rfl
  | succ n ih =>
    intro buf a b hb hl hf
    by_cases hab : a < b
    · have hla : a / 64 < buf.length := by
        have : a / 64 ≤ b / 64 := Nat.div_le_div_right (Nat.le_of_lt hab)
        omega
      have e1 : (a : Int) + 1 = ((a + 1 : Nat) : Int) := by push_cast; ring
      have e2 : (b : Int) - 1 = ((b - 1 : Nat) : Int) := by omega
      have hl2 : (b - 1) / 64 < (swap_bits buf a b).length := by
        rw [length_swap]
        have : (b - 1) / 64 ≤ b / 64 := Nat.div_le_div_right (by omega)
        omega
      obtain ⟨buf1, h1, h2, h3, h4⟩ := ih (swap_bits buf a b) (a + 1) (b - 1) (by omega) hl2
        (by omega)
      refine ⟨buf1, ?_, ?_, ?_, ?_⟩
      · unfold reverse_loop
        rw [if_pos (by omega), swap_step_eq buf a b (by omega) hb hla hl]
        show Option.bind _ _ = _
        rw [Option.some_bind, e1, e2]
        exact h1
      · rw [h2, length_swap]
      · intro hw
        exact h3 (words_swap buf a b hw hla hl)
      · intro k
        rw [h4]
        by_cases hk : a + 1 ≤ k ∧ k ≤ b - 1
        · rw [if_pos hk, if_pos (by omega), bit_swap _ _ _ _ hla hl,
            if_neg (by omega), if_neg (by omega)]
          congr 1
          omega
        · rw [if_neg hk, bit_swap _ _ _ _ hla hl]
          by_cases hka : k = a
          · rw [if_pos hka, if_pos (by omega)]
            congr 1
            omega
          · rw [if_neg hka]
            by_cases hkb : k = b
            · rw [if_pos hkb, if_pos (by omega)]
              congr 1
              omega
            · rw [if_neg hkb, if_neg (by omega)]
    · refine ⟨buf, ?_, rfl, fun h => h, ?_⟩
      · unfold reverse_loop
        rw [if_neg (by omega)]
      · intro k
        split_ifs with h
        · have : a + b - k = k := by omega
          rw [this]
        · rfl

theorem reverse_range_spec (buf : List Nat) (a b : Nat) (hb : b < 2 ^ 31)
    (hl : b / 64 < buf.length) :
    ∃ buf1, reverse_range buf 64 (a : Int) (b : Int) = some buf1 ∧
      buf1.length = buf.length ∧
      ((∀ w ∈ buf, w < 2 ^ 64) → ∀ w ∈ buf1, w < 2 ^ 64) ∧
      ∀ k, bit buf1 k = if a ≤ k ∧ k ≤ b then bit buf (a + b - k) else bit buf k := by
  unfold reverse_range
  exact reverse_loop_spec _ buf a b hb hl (by omega)

/-- The three loops of `bitarray_rotate` for a normalized shift `s < len`. -/
theorem three_reversals (buf : List Nat) (off len s : Nat) (hs : s < len)
    (hidx : off + len < 2 ^ 31) (hl : (off + len - 1) / 64 < buf.length) :
    ∃ b1 b2 b3,
      reverse_range buf 64 (off : Int) ((off + len - s - 1 : Nat) : Int) = some b1 ∧
      reverse_range b1 64 ((off + len - s : Nat) : Int) ((off + len - 1 : Nat) : Int) = some b2 ∧
      reverse_range b2 64 (off : Int) ((off + len - 1 : Nat) : Int) = some b3 ∧
      b3.length = buf.length ∧
      ((∀ w ∈ buf, w < 2 ^ 64) → ∀ w ∈ b3, w < 2 ^ 64) ∧
      (∀ k, k < len → bit b3 (off + (k + s) % len) = bit buf (off + k)) ∧
      (∀ k, k < off ∨ off + len ≤ k → bit b3 k = bit buf k) := by
  have hl1 : (off + len - s - 1) / 64 < buf.length := by
    have : (off + len - s - 1) / 64 ≤ (off + len - 1) / 64 := Nat.div_le_div_right (by omega)
    omega
  obtain ⟨b1, e1, l1, w1, s1⟩ := reverse_range_spec buf off (off + len - s - 1) (by omega) hl1
  obtain ⟨b2, e2, l2, w2, s2⟩ := reverse_range_spec b1 (off + len - s) (off + len - 1) (by omega)
    (by rw [l1]; exact hl)
  obtain ⟨b3, e3, l3, w3, s3⟩ := reverse_range_spec b2 off (off + len - 1) (by omega)
    (by rw [l2, l1]; exact hl)
  refine ⟨b1, b2, b3, e1, e2, e3, by rw [l3, l2, l1], fun h => w3 (w2 (w1 h)), ?_, ?_⟩
  · intro k hk
    by_cases hks : k + s < len
    · rw [Nat.mod_eq_of_lt hks, s3, if_pos (by omega), s2, if_neg (by omega), s1,
        if_pos (by omega)]
      congr 1
      omega
    · have hm : (k + s) % len = k + s - len := by
        rw [Nat.mod_eq_sub_mod (by omega), Nat.mod_eq_of_lt (by omega)]
      rw [hm, s3, if_pos (by omega), s2, if_pos (by omega), s1, if_neg (by omega)]
      congr 1
      omega
  · intro k hk
    rw [s3, if_neg (by omega), s2, if_neg (by omega), s1, if_neg (by omega)]

theorem to_size_add (a b : Nat) (h : a + b < 2 ^ 64) : to_size ((a : Int) + (b : Int)) = a + b := by
  unfold to_size; omega

theorem to_size_add_pred (a b : Nat) (hb : 0 < b) (h : a + b < 2 ^ 64) :
    to_size ((a : Int) + (b : Int) - 1) = a + b - 1 := by
  unfold to_size; omega

theorem to_size_pivot (r s : Nat) (hs : s ≤ r) (h : r < 2 ^ 63) :
    to_size ((r : Int) - (s : Int) + 1) = r + 1 - s := by
  unfold to_size; omega

theorem to_int_pred (q : Nat) (hq : 0 < q) (h : q < 2 ^ 31) :
    to_int ((to_size ((q : Int) - 1) : Nat) : Int) = ((q - 1 : Nat) : Int) := by
  unfold to_size to_int; omega

theorem to_int_nat (n : Nat) (h : n < 2 ^ 31) : to_int (n : Int) = (n : Int) :=
  to_int_small _ (by omega) (by omega)

theorem rotate_eq (ba : bitarray) (off len : Nat) (shift : Int) (s : Nat)
    (h64 : ba.int_sz = 64) (hlen : 0 < len) (hpre : off + len ≤ ba.bit_sz)
    (hidx : off + len < 2 ^ 31)
    (hm : modulo (to_int shift) (to_int (len : Int)) = some (s : Int)) (hs : s < len) :
    bitarray_rotate ba off len shift =
      (reverse_range ba.buf 64 (off : Int) ((off + len - s - 1 : Nat) : Int)).bind fun b1 =>
        (reverse_range b1 64 ((off + len - s : Nat) : Int) ((off + len - 1 : Nat) : Int)).bind
          fun b2 => (reverse_range b2 64 (off : Int) ((off + len - 1 : Nat) : Int)).bind
            fun b3 => some { ba with buf := b3 } := by
  have h1 : ¬ ¬ (off + len ≤ ba.bit_sz) := by omega
  have h2 : ¬ len = 0 := by omega
  have g1 : off + len < 2 ^ 64 := by omega
  have g2 : s < 2 ^ 64 := by omega
  have g3 : s ≤ off + len - 1 := by omega
  have g4 : off + len - 1 < 2 ^ 63 := by omega
  have g5 : off + len - 1 + 1 - s = off + len - s := by omega
  have g6 : 0 < off + len - s := by omega
  have g7 : off + len - s < 2 ^ 31 := by omega
  have g8 : off < 2 ^ 31 := by omega
  have g9 : off + len - 1 < 2 ^ 31 := by omega
  have e0 := to_size_add off len g1
  have es := to_size_small s g2
  have er := to_size_add_pred off len hlen g1
  have eq := to_size_pivot (off + len - 1) s g3 g4
  rw [g5] at eq
  have ej := to_int_pred (off + len - s) g6 g7
  have ep := to_int_nat off g8
  have eq2 := to_int_nat (off + len - s) g7
  have er2 := to_int_nat (off + len - 1) g9
  unfold bitarray_rotate
  rewrite [e0, if_neg h1, if_neg h2, hm, Option.bind_eq_bind, Option.some_bind]
  dsimp only
  rewrite [es, er, eq, ej, ep, eq2, er2, h64]
  rfl

theorem shift_index (k len : Nat) (shift : Int) (hlen : 0 < len) :
    (((k : Int) + shift) % (len : Int)).toNat = (k + (shift % (len : Int)).toNat) % len := by
  have hl : (len : Int) ≠ 0 := by omega
  have h0 : 0 ≤ shift % (len : Int) := Int.emod_nonneg _ hl
  have h1 : ((k : Int) + shift) % (len : Int) =
      (((k + (shift % (len : Int)).toNat) % len : Nat) : Int) := by
    rw [Int.natCast_mod, Nat.cast_add, Int.toNat_of_nonneg h0, Int.add_emod_emod]
  rw [h1, Int.toNat_natCast]

theorem modulo_shift (len : Nat) (shift : Int) (hlen : 0 < len) (hl : len < 2 ^ 31)
    (hsh : shift.natAbs < 2 ^ 24) :
    modulo (to_int shift) (to_int (len : Int)) = some (((shift % (len : Int)).toNat : Nat) : Int) ∧
      (shift % (len : Int)).toNat < len := by
  have hl0 : (len : Int) ≠ 0 := by omega
  have h0 : 0 ≤ shift % (len : Int) := Int.emod_nonneg _ hl0
  have h1 : shift % (len : Int) < len := Int.emod_lt_of_pos _ (by omega)
  have h2 : (shift % (len : Int)).toNat < len := by omega
  have e1 : to_int shift = shift := to_int_small _ (by omega) (by omega)
  have e2 : to_int (len : Int) = (len : Int) := to_int_nat len hl
  rw [e1, e2, modulo_small shift len hsh hlen hl, Int.toNat_of_nonneg h0]
  exact ⟨rfl, h2⟩

/-- Rotation within the range of exact arithmetic: for an array that satisfies
the representation invariant, a range that ends below bit `2^31` and a shift of
magnitude below `2^24`, `bitarray_rotate` returns, moves bit `bit_offset + k` to
`bit_offset + (k + shift) mod bit_length` and leaves every other bit of the
buffer (padding included), `bit_sz` and the invariant as they were. -/
theorem rotate_spec (ba : bitarray) (off len : Nat) (shift : Int) (hw : ba.wf)
    (hlen : 0 < len) (hpre : off + len ≤ ba.bit_sz) (hidx : off + len < 2 ^ 31)
    (hsh : shift.natAbs < 2 ^ 24) :
    ∃ ba1, bitarray_rotate ba off len shift = some ba1 ∧ ba1.wf ∧ ba1.bit_sz = ba.bit_sz ∧
      (∀ k : Nat, k < len →
        bit ba1.buf (off + (((k : Int) + shift) % (len : Int)).toNat) = bit ba.buf (off + k)) ∧
      (∀ k, k < off ∨ off + len ≤ k → bit ba1.buf k = bit ba.buf k) := by
  obtain ⟨h64, hbl, hsz, hwords⟩ := hw
  have hl : (off + len - 1) / 64 < ba.buf.length := by
    rw [hbl]
    have : (off + len - 1) / 64 ≤ ba.bit_sz / 64 := Nat.div_le_div_right (by omega)
    omega
  obtain ⟨hm, hs⟩ := modulo_shift len shift hlen (by omega) hsh
  obtain ⟨b1, b2, b3, e1, e2, e3, hlen3, hw3, hrot, hframe⟩ :=
    three_reversals ba.buf off len _ hs hidx hl
  refine ⟨{ ba with buf := b3 }, ?_, ⟨h64, by rw [← hbl]; exact hlen3, hsz, hw3 hwords⟩, rfl, ?_,
    hframe⟩
  · rw [rotate_eq ba off len shift _ h64 hlen hpre hidx hm hs, e1, Option.some_bind, e2,
      Option.some_bind, e3, Option.some_bind]
  · intro k hk
    rw [shift_index k len shift hlen]
    exact hrot k hk

/-! ## Rotation within the range of exact arithmetic -/

theorem rotate_empty_range (ba : bitarray) (offset : Nat) (shift : Int)
    (h : offset ≤ ba.bit_sz) : bitarray_rotate ba offset 0 shift = some ba := by
  have h1 : to_size ((offset : Int) + (0 : Nat)) ≤ ba.bit_sz := by
    unfold to_size; omega
  have h2 : to_size (offset : Int) ≤ ba.bit_sz := by simpa using h1
  simp [bitarray_rotate, h2]

theorem buf_ext (l1 l2 : List Nat) (hlen : l1.length = l2.length)
    (h1 : ∀ w ∈ l1, w < 2 ^ 64) (h2 : ∀ w ∈ l2, w < 2 ^ 64)
    (hb : ∀ k, bit l1 k = bit l2 k) : l1 = l2 := by
  apply List.ext_getElem hlen
  intro i hi1 hi2
  apply Nat.eq_of_testBit_eq
  intro t
  by_cases ht : t < 64
  · have h := hb (64 * i + (63 - t))
    unfold bit at h
    have e1 : (64 * i + (63 - t)) / 64 = i := by omega
    have e2 : 63 - (64 * i + (63 - t)) % 64 = t := by omega
    rw [e1, e2, List.getD_eq_getElem _ _ hi1, List.getD_eq_getElem _ _ hi2] at h
    exact h
  · have hp : 2 ^ 64 ≤ 2 ^ t := Nat.pow_le_pow_right (by norm_num) (by omega)
    rw [Nat.testBit_lt_two_pow (lt_of_lt_of_le (h1 _ (List.getElem_mem _)) hp),
      Nat.testBit_lt_two_pow (lt_of_lt_of_le (h2 _ (List.getElem_mem _)) hp)]

theorem bitarray_ext (ba1 ba2 : bitarray) (hw1 : ba1.wf) (hw2 : ba2.wf)
    (hsz : ba1.bit_sz = ba2.bit_sz) (hb : ∀ k, bit ba1.buf k = bit ba2.buf k) : ba1 = ba2 := by
  obtain ⟨a1, a2, a3, a4⟩ := hw1
  obtain ⟨c1, c2, c3, c4⟩ := hw2
  have hbuf : ba1.buf = ba2.buf := buf_ext _ _ (by rw [a2, c2, hsz]) a4 c4 hb
  cases ba1
  cases ba2
  simp_all

/-- Within the range of exact arithmetic a rotation by zero returns the array
unchanged. -/
theorem rotate_zero_shift_small (ba : bitarray) (off len : Nat) (hw : ba.wf)
    (hpre : off + len ≤ ba.bit_sz) (hidx : off + len < 2 ^ 31) :
    bitarray_rotate ba off len 0 = some ba := by
  rcases Nat.eq_zero_or_pos len with h0 | hpos
  · subst h0
    exact rotate_empty_range ba off 0 (by omega)
  · obtain ⟨ba1, h1, hw1, hsz1, hrot, hframe⟩ :=
      rotate_spec ba off len 0 hw hpos hpre hidx (by norm_num)
    rw [h1]
    congr 1
    apply bitarray_ext ba1 ba hw1 hw hsz1
    intro k
    by_cases hk : k < off ∨ off + len ≤ k
    · exact hframe k hk
    · have h := hrot (k - off) (by omega)
      have e : (((k - off : Nat) : Int) + 0) % (len : Int) = ((k - off : Nat) : Int) := by
        rw [add_zero]
        exact Int.emod_eq_of_lt (by omega) (by omega)
      rw [e, Int.toNat_natCast] at h
      have e2 : off + (k - off) = k := by omega
      rw [e2] at h
      exact h

/-- Within the range of exact arithmetic a rotation followed by the opposite
rotation returns the original array. -/
theorem rotate_there_and_back_small (ba : bitarray) (off len : Nat) (shift : Int) (hw : ba.wf)
    (hpre : off + len ≤ ba.bit_sz) (hidx : off + len < 2 ^ 31) (hsh : shift.natAbs < 2 ^ 24) :
    (bitarray_rotate ba off len shift).bind (fun ba1 => bitarray_rotate ba1 off len (-shift)) =
      some ba := by
  rcases Nat.eq_zero_or_pos len with h0 | hpos
  · subst h0
    rw [rotate_empty_range ba off shift (by omega), Option.some_bind,
      rotate_empty_range ba off (-shift) (by omega)]
  · obtain ⟨ba1, h1, hw1, hsz1, hrot1, hframe1⟩ :=
      rotate_spec ba off len shift hw hpos hpre hidx hsh
    obtain ⟨ba2, h2, hw2, hsz2, hrot2, hframe2⟩ :=
      rotate_spec ba1 off len (-shift) hw1 hpos (by omega) hidx (by simpa using hsh)
    rw [h1, Option.some_bind, h2]
    congr 1
    apply bitarray_ext ba2 ba hw2 hw (by omega)
    intro k
    by_cases hk : k < off ∨ off + len ≤ k
    · rw [hframe2 k hk, hframe1 k hk]
    · have hl0 : (len : Int) ≠ 0 := by omega
      have hj0 : 0 ≤ (((k - off : Nat) : Int) + shift) % (len : Int) := Int.emod_nonneg _ hl0
      have hj1 : (((k - off : Nat) : Int) + shift) % (len : Int) < len :=
        Int.emod_lt_of_pos _ (by omega)
      have hb := hrot1 (k - off) (by omega)
      have hjn : ((((k - off : Nat) : Int) + shift) % (len : Int)).toNat < len := by omega
      have hc := hrot2 _ hjn
      have e : ((((((k - off : Nat) : Int) + shift) % (len : Int)).toNat : Nat) : Int) =
          (((k - off : Nat) : Int) + shift) % (len : Int) := Int.toNat_of_nonneg hj0
      have e3 : ((((k - off : Nat) : Int) + shift) % (len : Int) + -shift) % (len : Int) =
          ((k - off : Nat) : Int) := by
        rw [Int.emod_add_emod, add_neg_cancel_right]
        exact Int.emod_eq_of_lt (by omega) (by omega)
      rw [e, e3, Int.toNat_natCast] at hc
      have e2 : off + (k - off) = k := by omega
      rw [e2] at hc hb
      rw [hc, hb]

/-- Within the range of exact arithmetic shifts that differ by a multiple of
the length give the same array. -/
theorem rotate_periodic_small (ba : bitarray) (off len : Nat) (shift k : Int) (hw : ba.wf)
    (hlen : 0 < len) (hpre : off + len ≤ ba.bit_sz) (hidx : off + len < 2 ^ 31)
    (hsh : shift.natAbs < 2 ^ 24) (hsh2 : (shift + k * (len : Int)).natAbs < 2 ^ 24) :
    bitarray_rotate ba off len (shift + k * (len : Int)) = bitarray_rotate ba off len shift := by
  obtain ⟨hm1, hs1⟩ := modulo_shift len shift hlen (by omega) hsh
  obtain ⟨hm2, hs2⟩ := modulo_shift len (shift + k * (len : Int)) hlen (by omega) hsh2
  rw [Int.add_mul_emod_self] at hm2
  rw [rotate_eq ba off len shift _ hw.1 hlen hpre hidx hm1 hs1,
    rotate_eq ba off len (shift + k * (len : Int)) _ hw.1 hlen hpre hidx hm2 hs1]

/-- Within the range of exact arithmetic `bitarray_get` reads the rotated bits:
the bit read at `bit_offset + (k + shift) mod bit_length` after the call is the
bit read at `bit_offset + k` before it, and the bits read outside the range are
the same before and after. -/
theorem rotate_get_small (ba : bitarray) (off len : Nat) (shift : Int) (hw : ba.wf)
    (hlen : 0 < len) (hpre : off + len ≤ ba.bit_sz) (hidx : off + len < 2 ^ 31)
    (hsh : shift.natAbs < 2 ^ 24) :
    ∃ ba1, bitarray_rotate ba off len shift = some ba1 ∧
      (∀ k : Nat, k < len →
        bitarray_get ba1 (off + (((k : Int) + shift) % (len : Int)).toNat) =
          bitarray_get ba (off + k)) ∧
      (∀ k, k < ba.bit_sz → (k < off ∨ off + len ≤ k) →
        bitarray_get ba1 k = bitarray_get ba k) := by
  obtain ⟨ba1, h1, hw1, hsz1, hrot, hframe⟩ := rotate_spec ba off len shift hw hlen hpre hidx hsh
  refine ⟨ba1, h1, ?_, ?_⟩
  · intro k hk
    have hl0 : (len : Int) ≠ 0 := by omega
    have hj0 : 0 ≤ ((k : Int) + shift) % (len : Int) := Int.emod_nonneg _ hl0
    have hj1 : ((k : Int) + shift) % (len : Int) < len := Int.emod_lt_of_pos _ (by omega)
    have hjn : (((k : Int) + shift) % (len : Int)).toNat < len := by omega
    rw [get_eq ba1 _ hw1.1 (wf_index ba1 hw1 _ (by omega)),
      get_eq ba _ hw.1 (wf_index ba hw _ (by omega)), hrot k hk]
  · intro k hk hout
    rw [get_eq ba1 _ hw1.1 (wf_index ba1 hw1 _ (by omega)),
      get_eq ba _ hw.1 (wf_index ba hw _ hk), hframe k hout]

/-- Witness of `modulo_small`. -/
theorem modulo_small_witness :
    (-7 : Int).natAbs < 2 ^ 24 ∧ 0 < 5 ∧ 5 < 2 ^ 31 ∧
      modulo (-7) ((5 : Nat) : Int) = some ((-7) % ((5 : Nat) : Int)) :=
  ⟨by decide, by decide, by decide, modulo_small (-7) 5 (by decide) (by decide) (by decide)⟩

/-- Witness of `rotate_spec`. -/
theorem rotate_spec_witness :
    ∃ ba1, bitarray_rotate (bitarray_new 70) 60 9 (-2) = some ba1 ∧ ba1.wf ∧
      ba1.bit_sz = (bitarray_new 70).bit_sz ∧
      (∀ k : Nat, k < 9 →
        bit ba1.buf (60 + (((k : Int) + (-2)) % ((9 : Nat) : Int)).toNat) =
          bit (bitarray_new 70).buf (60 + k)) ∧
      (∀ k, k < 60 ∨ 60 + 9 ≤ k → bit ba1.buf k = bit (bitarray_new 70).buf k) :=
  rotate_spec (bitarray_new 70) 60 9 (-2) (by decide) (by decide) (by decide) (by decide)
    (by decide)

/-- Witness of `rotate_zero_shift_small`. -/
theorem rotate_zero_shift_small_witness :
    bitarray_rotate (bitarray_new 70) 60 9 0 = some (bitarray_new 70) :=
  rotate_zero_shift_small (bitarray_new 70) 60 9 (by decide) (by decide) (by decide)

/-- Witness of `rotate_there_and_back_small`. -/
theorem rotate_there_and_back_small_witness :
    (bitarray_rotate (bitarray_new 70) 60 9 31).bind
      (fun ba1 => bitarray_rotate ba1 60 9 (-31)) = some (bitarray_new 70) :=
  rotate_there_and_back_small (bitarray_new 70) 60 9 31 (by decide) (by decide) (by decide)
    (by decide)

/-- Witness of `rotate_periodic_small`. -/
theorem rotate_periodic_small_witness :
    bitarray_rotate (bitarray_new 70) 60 9 (4 + (-3) * ((9 : Nat) : Int)) =
      bitarray_rotate (bitarray_new 70) 60 9 4 :=
  rotate_periodic_small (bitarray_new 70) 60 9 4 (-3) (by decide) (by decide) (by decide)
    (by decide) (by decide) (by decide)

/-! ## Rotation: literal cases and failing inputs -/

/-- C1 (fails on the code): on the 8-bit array "10010110", after
`bitarray_rotate(0, 4, 33554435)` the bit at index `0 + (0 + 33554435) mod 4 = 3`
is clear although bit `0` was set before the call; the array reads "00101110"
and not the right rotation by three, "00110110".  `modulo` computes
`(float)33554435 = 33554436.0f` and returns `-1`. -/
theorem rotate_shift_33554435_not_rotation :
    ∃ ba ba1, testutil_frmstr "10010110" = some ba ∧ 0 + 4 ≤ bitarray_get_bit_sz ba ∧
      bitarray_rotate ba 0 4 33554435 = some ba1 ∧
      modulo (to_int 33554435) (to_int (4 : Nat)) = some (-1) ∧
      bitarray_get ba (0 + 0) = some true ∧
      bitarray_get ba1 (0 + (0 + 33554435) % 4) = some false ∧
      bitarray_fprint ba1 = some "00101110" :=
  ⟨⟨8, [150 * 2 ^ 56], 64⟩, ⟨8, [46 * 2 ^ 56], 64⟩, by decide, by decide, by decide, by decide,
    by decide, by decide, by decide⟩

/-- C2 (fails on the code): on the 8-bit array "10010110",
`bitarray_rotate(0, 4, 33554435)` followed by `bitarray_rotate(0, 4, -33554435)`
leaves "00011110": bit `0` was set before the two calls and is clear after. -/
theorem rotate_there_and_back_33554435 :
    ∃ ba ba1 ba2, testutil_frmstr "10010110" = some ba ∧ 0 + 4 ≤ bitarray_get_bit_sz ba ∧
      bitarray_rotate ba 0 4 33554435 = some ba1 ∧
      bitarray_rotate ba1 0 4 (-33554435) = some ba2 ∧
      bitarray_get ba 0 = some true ∧ bitarray_get ba2 0 = some false ∧
      bitarray_fprint ba2 = some "00011110" :=
  ⟨⟨8, [150 * 2 ^ 56], 64⟩, ⟨8, [46 * 2 ^ 56], 64⟩, ⟨8, [30 * 2 ^ 56], 64⟩, by decide,
    by decide, by decide, by decide, by decide, by decide, by decide⟩

/-- C3 (fails on the code): on the 8-bit array "10010110" with offset 0 and
length 4, the shifts `3` and `3 + 8388608 * 4` give different arrays,
"00110110" and "00101110". -/
theorem rotate_shift_plus_multiple_differs :
    ∃ ba ba1 ba2, testutil_frmstr "10010110" = some ba ∧ 0 + 4 ≤ bitarray_get_bit_sz ba ∧
      bitarray_rotate ba 0 4 3 = some ba1 ∧
      bitarray_rotate ba 0 4 (3 + 8388608 * 4) = some ba2 ∧
      bitarray_fprint ba1 = some "00110110" ∧ bitarray_fprint ba2 = some "00101110" ∧
      ba1 ≠ ba2 :=
  ⟨⟨8, [150 * 2 ^ 56], 64⟩, ⟨8, [54 * 2 ^ 56], 64⟩, ⟨8, [46 * 2 ^ 56], 64⟩, by decide,
    by decide, by decide, by decide, by decide, by decide, by decide⟩

/-- C4 (fails on the code): on the 8-bit array "10010110",
`bitarray_rotate(0, 4, 33554435)` sets the bit at index `4`, which lies outside
the range `[0, 4)` (`0 + 4 <= 4`) and was clear before the call. -/
theorem rotate_writes_outside_range :
    ∃ ba ba1, testutil_frmstr "10010110" = some ba ∧ 0 + 4 ≤ bitarray_get_bit_sz ba ∧
      bitarray_rotate ba 0 4 33554435 = some ba1 ∧
      0 + 4 ≤ 4 ∧ bitarray_get ba 4 = some false ∧ bitarray_get ba1 4 = some true :=
  ⟨⟨8, [150 * 2 ^ 56], 64⟩, ⟨8, [46 * 2 ^ 56], 64⟩, by decide, by decide, by decide, by decide,
    by decide, by decide⟩

/-- C5: from the 8-bit array built from "10010110", `bitarray_rotate(0, 8, -1)`
gives the array built from "00101101", whose bits print as "00101101". -/
theorem rotate_example_left_one :
    ((testutil_frmstr "10010110").bind fun ba => bitarray_rotate ba 0 8 (-1)) =
        testutil_frmstr "00101101" ∧
      (((testutil_frmstr "10010110").bind fun ba => bitarray_rotate ba 0 8 (-1)).bind
        bitarray_fprint) = some "00101101" := by
  decide

/-- C6: from the 8-bit array built from "10010110", `bitarray_rotate(2, 5, 2)`
gives the array built from "10110100", whose bits print as "10110100". -/
theorem rotate_example_middle_two :
    ((testutil_frmstr "10010110").bind fun ba => bitarray_rotate ba 2 5 2) =
        testutil_frmstr "10110100" ∧
      (((testutil_frmstr "10010110").bind fun ba => bitarray_rotate ba 2 5 2).bind
        bitarray_fprint) = some "10110100" := by
  decide

/-- C7: with `offset <= bit_sz`, `bitarray_rotate(offset, 0, shift)` returns
with the array (buffer, `bit_sz`, `int_sz`) unchanged, for every shift. -/
theorem rotate_zero_length (ba : bitarray) (offset : Nat) (shift : Int)
    (h : offset ≤ ba.bit_sz) : bitarray_rotate ba offset 0 shift = some ba := by
  have h1 : to_size ((offset : Int) + (0 : Nat)) ≤ ba.bit_sz := by
    unfold to_size; omega
  have h2 : to_size (offset : Int) ≤ ba.bit_sz := by simpa using h1
  simp [bitarray_rotate, h2]

/-- Witness of `rotate_zero_length`. -/
theorem rotate_zero_length_witness :
    3 ≤ (bitarray_new 8).bit_sz ∧
      bitarray_rotate (bitarray_new 8) 3 0 (-5) = some (bitarray_new 8) :=
  ⟨by decide, rotate_zero_length (bitarray_new 8) 3 (-5) (by decide)⟩

/-- An array from `bitarray_new` satisfies the representation invariant. -/
theorem wf_new (n : Nat) (h : n < 2 ^ 64) : (bitarray_new n).wf := by
  refine ⟨rfl, by simp [bitarray_new], h, ?_⟩
  intro w hw
  simp [bitarray_new] at hw
  rw [hw]
  norm_num

/-- C8 (fails on the code): on the zeroed array of `2^32 + 10` bits,
`bitarray_rotate(2^32 - 5, 15, 0)` does not leave the array as it was: the
first loop starts at `i = (int)(2^32 - 5) = -5`, `j = 9` and reads `buf[-1]`,
outside the buffer. -/
theorem rotate_zero_shift_out_of_bounds :
    (bitarray_new (2 ^ 32 + 10)).wf ∧
      (2 ^ 32 - 5) + 15 ≤ (bitarray_new (2 ^ 32 + 10)).bit_sz ∧
      to_int ((2 ^ 32 - 5 : Nat) : Int) = -5 ∧
      to_int (to_size ((-5 : Int)) / 64) = -1 ∧
      rd (bitarray_new (2 ^ 32 + 10)).buf (-1) = none ∧
      bitarray_rotate (bitarray_new (2 ^ 32 + 10)) (2 ^ 32 - 5) 15 0 = none :=
  ⟨wf_new _ (by norm_num), by decide, by decide, by decide, by decide, by decide⟩

/-! ## Construction -/

theorem new_alloc_some (c m : Bool) (n : Nat) (ba : bitarray)
    (h : (bitarray_new_alloc c m n).ret = some ba) :
    c = true ∧ m = true ∧ ba = bitarray_new n := by
  cases c <;> cases m <;> simp [bitarray_new_alloc, bitarray_new] at h ⊢
  exact h.symm

theorem new_alloc_ok (n : Nat) :
    bitarray_new_alloc true true n =
      { ret := some (bitarray_new n), live := [block.buf, block.strct] } := by
  simp [bitarray_new_alloc, bitarray_new]

theorem new_index (n i : Nat) (h : i < n) : i / 64 < (bitarray_new n).buf.length := by
  have : i / 64 ≤ n / 64 := Nat.div_le_div_right (Nat.le_of_lt h)
  simp [bitarray_new]
  omega

theorem new_bit (n k : Nat) : bit (bitarray_new n).buf k = false := by
  unfold bit bitarray_new
  by_cases h : k / 64 < n / 64 + 1
  · rw [List.getD_eq_getElem _ _ (by simpa using h)]
    simp
  · rw [List.getD_eq_default _ _ (by simpa using h)]
    simp

/-- C11: whenever `bitarray_new(bit_sz)` returns an array, `bitarray_get` on it
returns false at every index below `bit_sz`, and each of its
`bit_sz / 64 + 1` storage words is `0`. -/
theorem new_all_zero (c m : Bool) (n : Nat) (ba : bitarray)
    (h : (bitarray_new_alloc c m n).ret = some ba) :
    (∀ i, i < n → bitarray_get ba i = some false) ∧ (∀ w ∈ ba.buf, w = 0) ∧
      ba.buf.length = n / 64 + 1 := by
  obtain ⟨-, -, rfl⟩ := new_alloc_some c m n ba h
  refine ⟨?_, ?_, by simp [bitarray_new]⟩
  · intro i hi
    rw [get_eq _ _ rfl (new_index n i hi), new_bit]
  · intro w hw
    simp [bitarray_new] at hw
    exact hw

/-- Witness of `new_all_zero`. -/
theorem new_all_zero_witness :
    (bitarray_new_alloc true true 70).ret = some (bitarray_new 70) ∧
      (∀ i, i < 70 → bitarray_get (bitarray_new 70) i = some false) ∧
      (∀ w ∈ (bitarray_new 70).buf, w = 0) ∧ (bitarray_new 70).buf.length = 70 / 64 + 1 :=
  ⟨by decide, new_all_zero true true 70 (bitarray_new 70) (by decide)⟩

/-- C12: whenever `bitarray_new(bit_sz)` returns an array,
`bitarray_get_bit_sz` of it is `bit_sz`; it returns one when both allocations
succeed. -/
theorem new_bit_sz (c m : Bool) (n : Nat) (ba : bitarray)
    (h : (bitarray_new_alloc c m n).ret = some ba) : bitarray_get_bit_sz ba = n := by
  obtain ⟨-, -, rfl⟩ := new_alloc_some c m n ba h
  rfl

/-- Witness of `new_bit_sz`. -/
theorem new_bit_sz_witness :
    (bitarray_new_alloc true true 70).ret = some (bitarray_new 70) ∧
      bitarray_get_bit_sz (bitarray_new 70) = 70 :=
  ⟨by decide, new_bit_sz true true 70 (bitarray_new 70) (by decide)⟩

/-- C19: `bitarray_new` returns `NULL` exactly when `calloc` or `malloc` fails;
in that case no block is left allocated (the buffer is freed when `malloc`
fails after `calloc` succeeded); when both succeed it returns the new array,
with its two blocks allocated. -/
theorem new_alloc_failure (c m : Bool) (n : Nat) :
    ((bitarray_new_alloc c m n).ret = none ↔ (c = false ∨ m = false)) ∧
      ((bitarray_new_alloc c m n).ret = none → (bitarray_new_alloc c m n).live = []) ∧
      (bitarray_new_alloc true false n).live = [] ∧
      (bitarray_new_alloc true true n).ret = some (bitarray_new n) ∧
      (bitarray_new_alloc true true n).live = [block.buf, block.strct] := by
  cases c <;> cases m <;> simp [bitarray_new_alloc, bitarray_new]

/-- The number of words `bitarray_new` allocates. -/
theorem new_words (n : Nat) : (bitarray_new n).buf.length = n / 64 + 1 := by
  simp [bitarray_new]

/-- The number of words is the rounded-up quotient, and at least one, unless
`bit_sz` is a positive multiple of 64. -/
theorem new_words_ceil (n : Nat) (h : n % 64 ≠ 0 ∨ n = 0) :
    (bitarray_new n).buf.length = max 1 ((n + 63) / 64) := by
  rw [new_words]
  omega

/-- C14 (fails on the code): for `bit_sz = 64` the array `bitarray_new` returns
has two storage words, and the rounded-up quotient of 64 by 64 is one. -/
theorem new_words_64 :
    (bitarray_new_alloc true true 64).ret = some (bitarray_new 64) ∧
      (bitarray_new 64).buf.length = 2 ∧ (64 + 63) / 64 = 1 ∧ max 1 ((64 + 63) / 64) = 1 := by
  decide

/-- C15 (fails on the code): `modulo` as `bitarray_rotate` calls it is not the
floor-mod.  For shift `33554435` and length `4` it returns `-1`, outside
`[0, 4)`, while the floor-mod is `3`; for shift `2^32 + 1` and length `3` the
shift is cut to the `int` `1` and it returns `1` while the floor-mod is `2`;
for shift `2147483647` and length `3` the product `y * (int)floorf(...)`
overflows `int`. -/
theorem modulo_not_floor_mod :
    modulo (to_int 33554435) (to_int ((4 : Nat) : Int)) = some (-1) ∧
      (33554435 : Int) % 4 = 3 ∧
      modulo (to_int (2 ^ 32 + 1)) (to_int ((3 : Nat) : Int)) = some 1 ∧
      (2 ^ 32 + 1 : Int) % 3 = 2 ∧
      modulo (to_int 2147483647) (to_int ((3 : Nat) : Int)) = none := by
  decide

/-! ## The mask table is rebuilt to the same value -/

theorem build_loop_done (fuel : Nat) (t : List Nat) : build_loop fuel (-1) t = some t := by
  cases fuel <;> simp [build_loop]

theorem build_loop_spec (i : Nat) : ∀ (fuel : Nat) (t : List Nat), i + 1 ≤ fuel → i < 63 →
    t.length = 64 → (∀ p, i < p → p < 64 → t[p]? = some (2 ^ (63 - p))) →
    ∃ t1, build_loop fuel (i : Int) t = some t1 ∧ t1.length = 64 ∧
      ∀ p, p < 64 → t1[p]? = some (2 ^ (63 - p)) := by
  induction i with
  | zero =>
    intro fuel t hf _ hlen ht
    obtain ⟨f, rfl⟩ : ∃ f, fuel = f + 1 := ⟨fuel - 1, by omega⟩
    refine ⟨t.set 0 (2 ^ 63), ?_, by simpa using hlen, ?_⟩
    · unfold build_loop
      have h1 : rd t ((0 : Nat) + 1 : Int) = some (2 ^ 62) := by
        have := ht 1 (by omega) (by omega)
        simpa [rd] using this
      have h2 : wr t ((0 : Nat) : Int) (2 ^ 62 * 2 % 2 ^ 64) = some (t.set 0 (2 ^ 63)) := by
        simp [wr, hlen]
      simp only [Nat.cast_zero] at h1 h2 ⊢
      have e0 : (0 : Int) - 1 = -1 := rfl
      rw [if_pos (le_refl _), h1, Option.bind_eq_bind, Option.some_bind, h2, Option.bind_eq_bind,
        Option.some_bind, e0]
      exact build_loop_done f _
    · intro p hp
      by_cases h0 : p = 0
      · subst h0
        rw [List.getElem?_set_self (by omega)]
      · rw [List.getElem?_set_ne (fun h => h0 h.symm)]
        exact ht p (by omega) hp
  | succ i ih =>
    intro fuel t hf hi hlen ht
    obtain ⟨f, rfl⟩ : ∃ f, fuel = f + 1 := ⟨fuel - 1, by omega⟩
    have hpow : 2 ^ (63 - (i + 2)) * 2 % 2 ^ 64 = 2 ^ (63 - (i + 1)) := by
      have e : 63 - (i + 1) = (63 - (i + 2)) + 1 := by omega
      have h5 : 2 ^ (63 - (i + 2) + 1) < 2 ^ 64 := Nat.pow_lt_pow_right (by norm_num) (by omega)
      rw [e, ← pow_succ]
      exact Nat.mod_eq_of_lt h5
    have h1 : rd t (((i + 1 : Nat) : Int) + 1) = some (2 ^ (63 - (i + 2))) := by
      have := ht (i + 2) (by omega) (by omega)
      have e : ((i + 1 : Nat) : Int) + 1 = ((i + 2 : Nat) : Int) := by push_cast; ring
      rw [e, rd_nat]
      exact this
    have h2 : wr t ((i + 1 : Nat) : Int) (2 ^ (63 - (i + 2)) * 2 % 2 ^ 64) =
        some (t.set (i + 1) (2 ^ (63 - (i + 1)))) := by
      rw [wr_nat _ _ _ (by omega), hpow]
    have e3 : ((i + 1 : Nat) : Int) - 1 = (i : Int) := by push_cast; ring
    obtain ⟨t1, hb, hl1, hp1⟩ := ih f (t.set (i + 1) (2 ^ (63 - (i + 1)))) (by omega) (by omega)
      (by simpa using hlen) (by
        intro p hp hp64
        by_cases h0 : p = i + 1
        · subst h0
          rw [List.getElem?_set_self (by omega)]
        · rw [List.getElem?_set_ne (fun h => h0 h.symm)]
          exact ht p (by omega) hp64)
    refine ⟨t1, ?_, hl1, hp1⟩
    unfold build_loop
    rw [if_pos (by omega), h1, Option.bind_eq_bind, Option.some_bind, h2, Option.bind_eq_bind,
      Option.some_bind, e3]
    exact hb

theorem build_table (t : List Nat) (hlen : t.length = 64) :
    build_setbit_array 64 t = some ((List.range 64).map (fun m => 2 ^ (63 - m))) := by
  have e1 : ((to_size (((64 : Nat) : Int) - 1) : Nat) : Int) = ((63 : Nat) : Int) := by decide
  have e2 : to_int ((to_size (((64 : Nat) : Int) - 2) : Nat) : Int) = ((62 : Nat) : Int) := by
    decide
  obtain ⟨t1, hb, hl1, hp1⟩ := build_loop_spec 62 64 (t.set 63 1) (by omega) (by omega)
    (by simpa using hlen) (by
      intro p hp hp64
      have : p = 63 := by omega
      subst this
      rw [List.getElem?_set_self (by omega)]
      rfl)
  unfold build_setbit_array
  rw [e1, e2, wr_nat _ _ _ (by omega), Option.bind_eq_bind, Option.some_bind, hb]
  congr 1
  apply List.ext_getElem?
  intro p
  by_cases hp : p < 64
  · rw [hp1 p hp]
    simp [hp]
  · rw [List.getElem?_eq_none (by omega), List.getElem?_eq_none (by simp; omega)]

/-- C16: whatever the 64 words of the table held before,
`build_setbit_array(64)` leaves `2^(63 - p)` at every position `p < 64`: a word
with the single bit `63 - p` set, different at different positions; building
again from the built table gives the same table. -/
theorem build_setbit_array_fixed (t : List Nat) (hlen : t.length = 64) :
    ∃ t1, build_setbit_array 64 t = some t1 ∧ t1.length = 64 ∧ t1 = setbit ∧
      (∀ p, p < 64 → t1[p]? = some (2 ^ (63 - p))) ∧
      (∀ p, p < 64 → ∀ b, (2 ^ (63 - p)).testBit b = decide (63 - p = b)) ∧
      (∀ p q, p < 64 → q < 64 → p ≠ q → t1[p]? ≠ t1[q]?) ∧
      build_setbit_array 64 t1 = some t1 := by
  have hl : ((List.range 64).map (fun m => 2 ^ (63 - m))).length = 64 := by simp
  have hget : ∀ p, p < 64 →
      ((List.range 64).map (fun m => 2 ^ (63 - m)))[p]? = some (2 ^ (63 - p)) := by
    intro p hp
    simp [hp]
  refine ⟨_, build_table t hlen, hl, setbit_eq.symm, hget, ?_, ?_, build_table _ hl⟩
  · intro p _ b
    exact Nat.testBit_two_pow
  · intro p q hp hq hpq
    rw [hget p hp, hget q hq]
    intro h
    have h2 : 63 - p = 63 - q := Nat.pow_right_injective (le_refl 2) (Option.some.inj h)
    omega

/-- Witness of `build_setbit_array_fixed`. -/
theorem build_setbit_array_fixed_witness :
    ∃ t1, build_setbit_array 64 (List.replicate 64 7) = some t1 ∧ t1.length = 64 ∧
      t1 = setbit ∧
      (∀ p, p < 64 → t1[p]? = some (2 ^ (63 - p))) ∧
      (∀ p, p < 64 → ∀ b, (2 ^ (63 - p)).testBit b = decide (63 - p = b)) ∧
      (∀ p q, p < 64 → q < 64 → p ≠ q → t1[p]? ≠ t1[q]?) ∧
      build_setbit_array 64 t1 = some t1 :=
  build_setbit_array_fixed (List.replicate 64 7) (by decide)

/-! ## `bit_sz` under the operations -/

theorem set_fields (ba ba1 : bitarray) (i : Nat) (v : Bool) (h : bitarray_set ba i v = some ba1) :
    ba1.bit_sz = ba.bit_sz ∧ ba1.int_sz = ba.int_sz := by
  unfold bitarray_set at h
  split at h
  · exact Option.noConfusion h
  · simp only [Option.bind_eq_bind, Option.bind_eq_some] at h
    obtain ⟨w, -, s, -, h2⟩ := h
    have h3 := Option.some.inj h2
    rw [← h3]
    exact ⟨rfl, rfl⟩

theorem rotate_fields (ba ba1 : bitarray) (off len : Nat) (shift : Int)
    (h : bitarray_rotate ba off len shift = some ba1) :
    ba1.bit_sz = ba.bit_sz ∧ ba1.int_sz = ba.int_sz := by
  unfold bitarray_rotate at h
  split at h
  · exact Option.noConfusion h
  · split at h
    · have h3 := Option.some.inj h
      rw [← h3]
      exact ⟨rfl, rfl⟩
    · simp only [Option.bind_eq_bind, Option.bind_eq_some] at h
      obtain ⟨m, -, b1, -, b2, -, b3, -, h2⟩ := h
      have h3 := Option.some.inj h2
      rw [← h3]
      exact ⟨rfl, rfl⟩

theorem randfill_fields (rand : Nat → Nat) (ba ba1 : bitarray)
    (h : bitarray_randfill rand ba = some ba1) :
    ba1.bit_sz = ba.bit_sz ∧ ba1.int_sz = ba.int_sz := by
  unfold bitarray_randfill at h
  simp only [Option.bind_eq_bind, Option.bind_eq_some] at h
  obtain ⟨b, -, h2⟩ := h
  have h3 := Option.some.inj h2
  rw [← h3]
  exact ⟨rfl, rfl⟩

theorem apply_op_fields (ba ba1 : bitarray) (o : op) (h : apply_op ba o = some ba1) :
    ba1.bit_sz = ba.bit_sz ∧ ba1.int_sz = ba.int_sz := by
  cases o with
  | set i v => exact set_fields ba ba1 i v h
  | rotate off len shift => exact rotate_fields ba ba1 off len shift h
  | randfill rand => exact randfill_fields rand ba ba1 h

theorem apply_ops_fields (ops : List op) : ∀ (ba ba1 : bitarray), apply_ops ba ops = some ba1 →
    ba1.bit_sz = ba.bit_sz ∧ ba1.int_sz = ba.int_sz := by
  induction ops with
  | nil =>
    intro ba ba1 h
    have h3 := Option.some.inj h
    rw [← h3]
    exact ⟨rfl, rfl⟩
  | cons o os ih =>
    intro ba ba1 h
    unfold apply_ops at h
    rw [Option.bind_eq_some] at h
    obtain ⟨ba2, h1, h2⟩ := h
    obtain ⟨a1, a2⟩ := apply_op_fields ba ba2 o h1
    obtain ⟨c1, c2⟩ := ih ba2 ba1 h2
    exact ⟨by rw [c1, a1], by rw [c2, a2]⟩

/-- C13: for the array `bitarray_new(n)` returns and every sequence of calls of
`bitarray_set`, `bitarray_rotate` and `bitarray_randfill` that return,
`bitarray_get_bit_sz` of the array after the calls is `n`, and `int_sz` is
still 64. -/
theorem bit_sz_immutable (c m : Bool) (n : Nat) (ba ba1 : bitarray) (ops : List op)
    (hnew : (bitarray_new_alloc c m n).ret = some ba) (h : apply_ops ba ops = some ba1) :
    bitarray_get_bit_sz ba1 = n ∧ ba1.int_sz = 64 := by
  obtain ⟨-, -, rfl⟩ := new_alloc_some c m n ba hnew
  obtain ⟨h1, h2⟩ := apply_ops_fields ops _ ba1 h
  exact ⟨h1, h2⟩

/-- Witness of `bit_sz_immutable`. -/
theorem bit_sz_immutable_witness :
    (bitarray_new_alloc true true 70).ret = some (bitarray_new 70) ∧
      apply_ops (bitarray_new 70)
        [op.set 3 true, op.rotate 0 10 2, op.randfill (fun k => k + 5), op.set 69 true] =
          some ⟨70, [5, 6 + 2 ^ 58], 64⟩ ∧
      bitarray_get_bit_sz (⟨70, [5, 6 + 2 ^ 58], 64⟩ : bitarray) = 70 ∧
      (⟨70, [5, 6 + 2 ^ 58], 64⟩ : bitarray).int_sz = 64 :=
  ⟨by decide, by decide,
    bit_sz_immutable true true 70 (bitarray_new 70) ⟨70, [5, 6 + 2 ^ 58], 64⟩
      [op.set 3 true, op.rotate 0 10 2, op.randfill (fun k => k + 5), op.set 69 true]
      (by decide) (by decide)⟩

/-! ## Arrays from bit strings -/

theorem boolfromchar_bit (c : Char) (h : c = '0' ∨ c = '1') :
    boolfromchar c = some (decide (c = '1')) := by
  unfold boolfromchar
  rw [if_pos h]
  rfl

theorem set_bits (ba : bitarray) (i : Nat) (v : Bool) (h64 : ba.int_sz = 64)
    (hl : ba.buf.length = ba.bit_sz / 64 + 1) (hi : i < ba.bit_sz) :
    ∃ ba1, bitarray_set ba i v = some ba1 ∧ ba1.int_sz = 64 ∧
      ba1.buf.length = ba1.bit_sz / 64 + 1 ∧ ba1.bit_sz = ba.bit_sz ∧
      ∀ j, bit ba1.buf j = if j = i then v else bit ba.buf j := by
  have hidx : i / 64 < ba.buf.length := by
    rw [hl]
    have : i / 64 ≤ ba.bit_sz / 64 := Nat.div_le_div_right (Nat.le_of_lt hi)
    omega
  refine ⟨_, set_eq ba i v h64 hidx, h64, by simpa using hl, rfl, ?_⟩
  intro j
  exact bit_set _ _ _ _ hidx

theorem frmstr_loop_spec (cs : List Char) : ∀ (i : Nat) (ba : bitarray), ba.int_sz = 64 →
    ba.buf.length = ba.bit_sz / 64 + 1 → i + cs.length ≤ ba.bit_sz →
    (∀ c ∈ cs, c = '0' ∨ c = '1') →
    ∃ ba1, frmstr_loop cs i ba = some ba1 ∧ ba1.int_sz = 64 ∧
      ba1.buf.length = ba1.bit_sz / 64 + 1 ∧ ba1.bit_sz = ba.bit_sz ∧
      (∀ j, j < i → bit ba1.buf j = bit ba.buf j) ∧
      (∀ j, j < cs.length → bit ba1.buf (i + j) = decide (cs[j]? = some '1')) := by
  induction cs with
  | nil =>
    intro i ba h64 hl _ _
    exact ⟨ba, rfl, h64, hl, rfl, fun _ _ => rfl, fun j hj => absurd hj (by simp)⟩
  | cons c cs ih =>
    intro i ba h64 hl hi hc
    have hlt : i < ba.bit_sz := by
      have : (c :: cs).length = cs.length + 1 := rfl
      omega
    have hlt2 : i + 1 + cs.length ≤ ba.bit_sz := by
      have : (c :: cs).length = cs.length + 1 := rfl
      omega
    obtain ⟨ba0, hset, b1, b2, b3, b4⟩ := set_bits ba i (decide (c = '1')) h64 hl hlt
    obtain ⟨ba1, e1, a1, a2, a3, a4, a5⟩ := ih (i + 1) ba0 b1 b2 (by rw [b3]; exact hlt2)
      (fun x hx => hc x (List.mem_cons_of_mem _ hx))
    refine ⟨ba1, ?_, a1, a2, by rw [a3, b3], ?_, ?_⟩
    · unfold frmstr_loop
      rw [boolfromchar_bit c (hc c (List.mem_cons_self _ _)), Option.bind_eq_bind,
        Option.some_bind, hset, Option.bind_eq_bind, Option.some_bind]
      exact e1
    · intro j hj
      rw [a4 j (by omega), b4 j, if_neg (by omega)]
    · intro j hj
      cases j with
      | zero =>
        rw [Nat.add_zero, a4 i (by omega), b4 i, if_pos rfl]
        simp
      | succ j =>
        have hj2 : j < cs.length := by
          have : (c :: cs).length = cs.length + 1 := rfl
          omega
        have e : i + (j + 1) = i + 1 + j := by omega
        rw [e, a5 j hj2]
        simp

theorem expect_loop_spec (cs : List Char) : ∀ (i : Nat) (ba : bitarray), ba.int_sz = 64 →
    ba.buf.length = ba.bit_sz / 64 + 1 → i + cs.length ≤ ba.bit_sz →
    (∀ c ∈ cs, c = '0' ∨ c = '1') →
    (∀ j, j < cs.length → bit ba.buf (i + j) = decide (cs[j]? = some '1')) →
    expect_loop cs i ba = some true := by
  induction cs with
  | nil =>
    intro i ba _ _ _ _ _
    rfl
  | cons c cs ih =>
    intro i ba h64 hl hi hc hb
    have hcl : (c :: cs).length = cs.length + 1 := rfl
    have hidx : i / 64 < ba.buf.length := by
      rw [hl]
      have : i / 64 ≤ ba.bit_sz / 64 := Nat.div_le_div_right (by omega)
      omega
    have h0 := hb 0 (by omega)
    rw [Nat.add_zero] at h0
    have h0' : bit ba.buf i = decide (c = '1') := by simpa using h0
    have hne : ¬ ((decide (c = '1') != decide (c = '1')) = true) := by simp
    unfold expect_loop
    rw [get_eq ba i h64 hidx, boolfromchar_bit c (hc c (List.mem_cons_self _ _)), h0']
    repeat (first | rw [Option.bind_eq_bind] | rw [Option.some_bind])
    rw [if_neg hne]
    apply ih (i + 1) ba h64 hl (by omega) (fun x hx => hc x (List.mem_cons_of_mem _ hx))
    intro j hj
    have := hb (j + 1) (by omega)
    have e : i + (j + 1) = i + 1 + j := by omega
    rw [e] at this
    simpa using this

theorem bits_upto_some (ba : bitarray) (h64 : ba.int_sz = 64)
    (hl : ba.buf.length = ba.bit_sz / 64 + 1) (n : Nat) (hn : n ≤ ba.bit_sz) :
    ∃ l, bits_upto ba n = some l := by
  induction n with
  | zero => exact ⟨[], rfl⟩
  | succ n ih =>
    obtain ⟨l, hl1⟩ := ih (by omega)
    have hidx : n / 64 < ba.buf.length := by
      rw [hl]
      have : n / 64 ≤ ba.bit_sz / 64 := Nat.div_le_div_right (by omega)
      omega
    refine ⟨l ++ [bit ba.buf n], ?_⟩
    unfold bits_upto
    rw [hl1, get_eq ba n h64 hidx]
    rfl

/-- C17: for a string of the characters `0` and `1`, `testutil_frmstr` returns
an array whose `bitarray_get_bit_sz` is the length of the string and whose bit
`i` reads as `s[i] == '1'` for every `i` below the length, and
`testutil_expect_internal` passes on that array and string. -/
theorem frmstr_expect (s : String) (hs : ∀ c ∈ s.data, c = '0' ∨ c = '1') :
    ∃ ba, testutil_frmstr s = some ba ∧ bitarray_get_bit_sz ba = s.length ∧
      (∀ i, i < s.length → bitarray_get ba i = some (decide (s.data[i]? = some '1'))) ∧
      testutil_expect_internal ba s = some true := by
  have hlen : s.length = s.data.length := rfl
  have hnl : (bitarray_new s.length).buf.length = (bitarray_new s.length).bit_sz / 64 + 1 :=
    List.length_replicate _ _
  have hnb : 0 + s.data.length ≤ (bitarray_new s.length).bit_sz := by
    show 0 + s.data.length ≤ s.length
    omega
  obtain ⟨ba, e1, a1, a2, a3, -, a5⟩ := frmstr_loop_spec s.data 0 (bitarray_new s.length) rfl
    hnl hnb hs
  have hsz : ba.bit_sz = s.length := a3
  refine ⟨ba, e1, hsz, ?_, ?_⟩
  · intro i hi
    have hidx : i / 64 < ba.buf.length := by
      rw [a2, hsz]
      have : i / 64 ≤ s.length / 64 := Nat.div_le_div_right (Nat.le_of_lt hi)
      omega
    have := a5 i (by rw [← hlen]; exact hi)
    rw [Nat.zero_add] at this
    rw [get_eq ba i a1 hidx, this]
  · have hex := expect_loop_spec s.data 0 ba a1 a2 (by rw [hsz, hlen]; omega) hs (by
      intro j hj
      exact a5 j hj)
    obtain ⟨l, hl⟩ := bits_upto_some ba a1 a2 ba.bit_sz (le_refl _)
    unfold testutil_expect_internal bitarray_get_bit_sz
    have hno : ¬ (s.length + 1 < ba.bit_sz) := by omega
    rw [hex, hl]
    repeat (first | rw [Option.bind_eq_bind] | rw [Option.some_bind])
    rw [if_neg hno, hsz]
    simp

/-- Witness of `frmstr_expect`. -/
theorem frmstr_expect_witness :
    ∃ ba, testutil_frmstr "10010110" = some ba ∧ bitarray_get_bit_sz ba = "10010110".length ∧
      (∀ i, i < "10010110".length →
        bitarray_get ba i = some (decide ("10010110".data[i]? = some '1'))) ∧
      testutil_expect_internal ba "10010110" = some true :=
  frmstr_expect "10010110" (by decide)

/-! ## The factored reversal -/

theorem set_full (ba : bitarray) (i : Nat) (v : Bool) (hw : ba.wf) (hi : i < ba.bit_sz) :
    ∃ ba1, bitarray_set ba i v = some ba1 ∧ ba1.wf ∧ ba1.bit_sz = ba.bit_sz ∧
      ∀ j, bit ba1.buf j = if j = i then v else bit ba.buf j := by
  obtain ⟨ba1, h1, -, -, h4, h5⟩ := set_bits ba i v hw.1 hw.2.1 hi
  obtain ⟨ba2, h6, h7⟩ := set_wf ba i v hw hi
  rw [h1] at h6
  have h8 := Option.some.inj h6
  rw [← h8] at h7
  exact ⟨ba1, h1, h7, h4, h5⟩

/-- `bitarray_reverse` on cursors below `bit_sz` reverses the bits of `[a, b]`
and leaves the other bits of the buffer as they were. -/
theorem bitarray_reverse_loop_spec (fuel : Nat) : ∀ (ba : bitarray) (a b : Nat), ba.wf →
    b < ba.bit_sz → b - a ≤ fuel →
    ∃ ba1, bitarray_reverse_loop fuel ba a b = some ba1 ∧ ba1.wf ∧ ba1.bit_sz = ba.bit_sz ∧
      ∀ k, bit ba1.buf k = if a ≤ k ∧ k ≤ b then bit ba.buf (a + b - k) else bit ba.buf k := by
  induction fuel with
  | zero =>
    intro ba a b hw hb hf
    refine ⟨ba, ?_, hw, rfl, ?_⟩
    · unfold bitarray_reverse_loop
      rw [if_neg (by omega)]
    · intro k
      split_ifs with h
      · have : a + b - k = k := by omega
        rw [this]
      · rfl
  | succ n ih =>
    intro ba a b hw hb hf
    by_cases hab : a < b
    · have hsz : ba.bit_sz < 2 ^ 64 := hw.2.2.1
      have ha : a < ba.bit_sz := by omega
      have g1 : a + 1 < 2 ^ 64 := by omega
      have g2 : b - 1 < 2 ^ 64 := by omega
      have g3 : 0 < b := by omega
      obtain ⟨ba1, h1, w1, z1, s1⟩ := set_full ba a (bit ba.buf b) hw ha
      obtain ⟨ba2, h2, w2, z2, s2⟩ := set_full ba1 b (bit ba.buf a) w1 (by omega)
      obtain ⟨ba3, h3, w3, z3, s3⟩ := ih ba2 (a + 1) (b - 1) w2 (by omega) (by omega)
      have e1 : to_size ((a : Int) + 1) = a + 1 := by
        have := to_size_small (a + 1) g1
        rw [← this]
        congr 1
      have e2 : to_size ((b : Int) - 1) = b - 1 := by
        have := to_size_small (b - 1) g2
        rw [← this]
        congr 1
        exact (Int.ofNat_sub g3).symm
      refine ⟨ba3, ?_, w3, by rw [z3, z2, z1], ?_⟩
      · unfold bitarray_reverse_loop
        rw [if_pos hab, get_eq ba a hw.1 (wf_index ba hw a ha),
          get_eq ba b hw.1 (wf_index ba hw b hb)]
        repeat (first | rw [Option.bind_eq_bind] | rw [Option.some_bind])
        rw [h1]
        repeat (first | rw [Option.bind_eq_bind] | rw [Option.some_bind])
        rw [h2]
        repeat (first | rw [Option.bind_eq_bind] | rw [Option.some_bind])
        rw [e1, e2]
        exact h3
      · intro k
        rw [s3]
        by_cases hk : a + 1 ≤ k ∧ k ≤ b - 1
        · rw [if_pos hk, if_pos (by omega), s2, if_neg (by omega), s1, if_neg (by omega)]
          congr 1
          omega
        · rw [if_neg hk, s2, s1]
          by_cases hkb : k = b
          · rw [if_pos hkb, if_pos (by omega)]
            congr 1
            omega
          · rw [if_neg hkb]
            by_cases hka : k = a
            · rw [if_pos hka, if_pos (by omega)]
              congr 1
              omega
            · rw [if_neg hka, if_neg (by omega)]
    · refine ⟨ba, ?_, hw, rfl, ?_⟩
      · unfold bitarray_reverse_loop
        rw [if_neg hab]
      · intro k
        split_ifs with h
        · have : a + b - k = k := by omega
          rw [this]
        · rfl

theorem bitarray_reverse_spec (ba : bitarray) (a b : Nat) (hw : ba.wf) (hb : b < ba.bit_sz) :
    ∃ ba1, bitarray_reverse ba a b = some ba1 ∧ ba1.wf ∧ ba1.bit_sz = ba.bit_sz ∧
      ∀ k, bit ba1.buf k = if a ≤ k ∧ k ≤ b then bit ba.buf (a + b - k) else bit ba.buf k := by
  unfold bitarray_reverse
  exact bitarray_reverse_loop_spec _ ba a b hw hb (le_refl _)

theorem to_size_pivot_wide (r s : Nat) (hs : s ≤ r) (h : r + 1 < 2 ^ 64) :
    to_size ((r : Int) - (s : Int) + 1) = r + 1 - s := by
  unfold to_size; omega

theorem to_size_pred (q : Nat) (hq : 0 < q) (h : q < 2 ^ 64) :
    to_size ((q : Int) - 1) = q - 1 := by
  unfold to_size; omega

theorem rotate_pivot_eq (off len : Nat) (shift : Int) (s : Nat) (hlen : 0 < len)
    (hidx : off + len < 2 ^ 64)
    (hm : modulo (to_int shift) (to_int (len : Int)) = some (s : Int)) (hs : s < len) :
    rotate_pivot off len shift = some (off + len - s) := by
  have g2 : s < 2 ^ 64 := by omega
  have g3 : s ≤ off + len - 1 := by omega
  have g4 : off + len - 1 + 1 < 2 ^ 64 := by omega
  have g5 : off + len - 1 + 1 - s = off + len - s := by omega
  have es := to_size_small s g2
  have er := to_size_add_pred off len hlen hidx
  have eq := to_size_pivot_wide (off + len - 1) s g3 g4
  rw [g5] at eq
  unfold rotate_pivot
  rewrite [hm, Option.bind_eq_bind, Option.some_bind]
  dsimp only
  rewrite [es, er, eq]
  rfl

theorem rotate_factored_eq (ba : bitarray) (off len : Nat) (shift : Int) (s : Nat)
    (hlen : 0 < len) (hpre : off + len ≤ ba.bit_sz) (hidx : off + len < 2 ^ 64)
    (hm : modulo (to_int shift) (to_int (len : Int)) = some (s : Int)) (hs : s < len) :
    rotate_factored ba off len shift =
      (bitarray_reverse ba off (off + len - s - 1)).bind fun ba1 =>
        (bitarray_reverse ba1 (off + len - s) (off + len - 1)).bind fun ba2 =>
          bitarray_reverse ba2 off (off + len - 1) := by
  have h1 : ¬ ¬ (off + len ≤ ba.bit_sz) := by omega
  have h2 : ¬ len = 0 := by omega
  have g6 : 0 < off + len - s := by omega
  have g7 : off + len - s < 2 ^ 64 := by omega
  have e0 := to_size_add off len hidx
  have er := to_size_add_pred off len hlen hidx
  have ej := to_size_pred (off + len - s) g6 g7
  have ep := rotate_pivot_eq off len shift s hlen hidx hm hs
  unfold rotate_factored
  rewrite [e0, if_neg h1, if_neg h2, ep, Option.bind_eq_bind, Option.some_bind]
  dsimp only
  rewrite [er, ej]
  rfl

theorem three_reverse_calls (ba : bitarray) (off len s : Nat) (hw : ba.wf) (hs : s < len)
    (hpre : off + len ≤ ba.bit_sz) :
    ∃ b1 b2 b3,
      bitarray_reverse ba off (off + len - s - 1) = some b1 ∧
      bitarray_reverse b1 (off + len - s) (off + len - 1) = some b2 ∧
      bitarray_reverse b2 off (off + len - 1) = some b3 ∧
      b3.wf ∧ b3.bit_sz = ba.bit_sz ∧
      (∀ k, k < len → bit b3.buf (off + (k + s) % len) = bit ba.buf (off + k)) ∧
      (∀ k, k < off ∨ off + len ≤ k → bit b3.buf k = bit ba.buf k) := by
  obtain ⟨b1, e1, w1, z1, s1⟩ := bitarray_reverse_spec ba off (off + len - s - 1) hw (by omega)
  obtain ⟨b2, e2, w2, z2, s2⟩ := bitarray_reverse_spec b1 (off + len - s) (off + len - 1) w1
    (by omega)
  obtain ⟨b3, e3, w3, z3, s3⟩ := bitarray_reverse_spec b2 off (off + len - 1) w2 (by omega)
  refine ⟨b1, b2, b3, e1, e2, e3, w3, by rw [z3, z2, z1], ?_, ?_⟩
  · intro k hk
    by_cases hks : k + s < len
    · rw [Nat.mod_eq_of_lt hks, s3, if_pos (by omega), s2, if_neg (by omega), s1,
        if_pos (by omega)]
      congr 1
      omega
    · have hmod : (k + s) % len = k + s - len := by
        rw [Nat.mod_eq_sub_mod (by omega), Nat.mod_eq_of_lt (by omega)]
      rw [hmod, s3, if_pos (by omega), s2, if_pos (by omega), s1, if_neg (by omega)]
      congr 1
      omega
  · intro k hk
    rw [s3, if_neg (by omega), s2, if_neg (by omega), s1, if_neg (by omega)]

/-- The factored rotation within the range of exact `modulo`: the same bits as
the specification of `bitarray_rotate`, for every range of the array. -/
theorem rotate_factored_spec (ba : bitarray) (off len : Nat) (shift : Int) (hw : ba.wf)
    (hlen : 0 < len) (hpre : off + len ≤ ba.bit_sz) (hl31 : len < 2 ^ 31)
    (hsh : shift.natAbs < 2 ^ 24) :
    ∃ ba1, rotate_factored ba off len shift = some ba1 ∧ ba1.wf ∧ ba1.bit_sz = ba.bit_sz ∧
      (∀ k : Nat, k < len →
        bit ba1.buf (off + (((k : Int) + shift) % (len : Int)).toNat) = bit ba.buf (off + k)) ∧
      (∀ k, k < off ∨ off + len ≤ k → bit ba1.buf k = bit ba.buf k) := by
  have hsz : ba.bit_sz < 2 ^ 64 := hw.2.2.1
  have hidx : off + len < 2 ^ 64 := by omega
  obtain ⟨hm, hs⟩ := modulo_shift len shift hlen hl31 hsh
  obtain ⟨b1, b2, b3, e1, e2, e3, w3, z3, hrot, hframe⟩ :=
    three_reverse_calls ba off len _ hw hs hpre
  refine ⟨b3, ?_, w3, z3, ?_, hframe⟩
  · rw [rotate_factored_eq ba off len shift _ hlen hpre hidx hm hs, e1, Option.some_bind,
      e2, Option.some_bind, e3]
  · intro k hk
    rw [shift_index k len shift hlen]
    exact hrot k hk

/-- One inlined loop of `bitarray_rotate` and `bitarray_reverse` give the same
buffer, for cursors below `bit_sz` and below `2^31`. -/
theorem reverse_agree (ba : bitarray) (a b : Nat) (hw : ba.wf) (hb : b < ba.bit_sz)
    (hb31 : b < 2 ^ 31) :
    ∃ buf1, reverse_range ba.buf 64 (a : Int) (b : Int) = some buf1 ∧
      bitarray_reverse ba a b = some { ba with buf := buf1 } := by
  obtain ⟨buf1, e1, l1, w1, s1⟩ := reverse_range_spec ba.buf a b hb31 (wf_index ba hw b hb)
  obtain ⟨ba1, e2, w2, z2, s2⟩ := bitarray_reverse_spec ba a b hw hb
  refine ⟨buf1, e1, ?_⟩
  rw [e2]
  congr 1
  have hw3 : ({ ba with buf := buf1 } : bitarray).wf :=
    ⟨hw.1, by rw [← hw.2.1]; exact l1, hw.2.2.1, w1 hw.2.2.2⟩
  apply bitarray_ext ba1 _ w2 hw3 z2
  intro k
  rw [s2, s1]

/-- Within the range of exact arithmetic the inlined loops of
`bitarray_rotate` and the factored form give the same array. -/
theorem rotate_factored_small (ba : bitarray) (off len : Nat) (shift : Int) (hw : ba.wf)
    (hlen : 0 < len) (hpre : off + len ≤ ba.bit_sz) (hidx : off + len < 2 ^ 31)
    (hsh : shift.natAbs < 2 ^ 24) :
    rotate_factored ba off len shift = bitarray_rotate ba off len shift := by
  obtain ⟨ba1, h1, w1, z1, r1, f1⟩ := rotate_spec ba off len shift hw hlen hpre hidx hsh
  obtain ⟨ba2, h2, w2, z2, r2, f2⟩ :=
    rotate_factored_spec ba off len shift hw hlen hpre (by omega) hsh
  rw [h1, h2]
  congr 1
  apply bitarray_ext ba2 ba1 w2 w1 (by rw [z2, z1])
  intro x
  by_cases hx : x < off ∨ off + len ≤ x
  · rw [f1 x hx, f2 x hx]
  · have hl0 : (len : Int) ≠ 0 := by omega
    have hlp : (0 : Int) < (len : Int) := by omega
    have hk0 : 0 ≤ (((x - off : Nat) : Int) - shift) % (len : Int) := Int.emod_nonneg _ hl0
    have hk1 : (((x - off : Nat) : Int) - shift) % (len : Int) < len := Int.emod_lt_of_pos _ hlp
    have hkn : ((((x - off : Nat) : Int) - shift) % (len : Int)).toNat < len := by omega
    have e : ((((((x - off : Nat) : Int) - shift) % (len : Int)).toNat : Nat) : Int) =
        (((x - off : Nat) : Int) - shift) % (len : Int) := Int.toNat_of_nonneg hk0
    have e3 : ((((x - off : Nat) : Int) - shift) % (len : Int) + shift) % (len : Int) =
        ((x - off : Nat) : Int) := by
      rw [Int.emod_add_emod, sub_add_cancel]
      exact Int.emod_eq_of_lt (by omega) (by omega)
    have a1 := r1 _ hkn
    have a2 := r2 _ hkn
    rw [e, e3, Int.toNat_natCast] at a1 a2
    have e2 : off + (x - off) = x := by omega
    rw [e2] at a1 a2
    rw [a1, a2]

theorem rotate_factored_empty (ba : bitarray) (offset : Nat) (shift : Int)
    (h : offset ≤ ba.bit_sz) : rotate_factored ba offset 0 shift = some ba := by
  have h1 : to_size ((offset : Int) + (0 : Nat)) ≤ ba.bit_sz := by
    unfold to_size; omega
  have h2 : to_size (offset : Int) ≤ ba.bit_sz := by simpa using h1
  simp [rotate_factored, h2]

/-- The factored form with shift zero returns the array unchanged, for every
range of the array. -/
theorem rotate_factored_zero_shift (ba : bitarray) (off len : Nat) (hw : ba.wf)
    (hpre : off + len ≤ ba.bit_sz) (hl31 : len < 2 ^ 31) :
    rotate_factored ba off len 0 = some ba := by
  rcases Nat.eq_zero_or_pos len with h0 | hpos
  · subst h0
    exact rotate_factored_empty ba off 0 (by omega)
  · obtain ⟨ba1, h1, hw1, hsz1, hrot, hframe⟩ :=
      rotate_factored_spec ba off len 0 hw hpos hpre hl31 (by norm_num)
    rw [h1]
    congr 1
    apply bitarray_ext ba1 ba hw1 hw hsz1
    intro k
    by_cases hk : k < off ∨ off + len ≤ k
    · exact hframe k hk
    · have h := hrot (k - off) (by omega)
      have e : (((k - off : Nat) : Int) + 0) % (len : Int) = ((k - off : Nat) : Int) := by
        rw [add_zero]
        exact Int.emod_eq_of_lt (by omega) (by omega)
      rw [e, Int.toNat_natCast] at h
      have e2 : off + (k - off) = k := by omega
      rw [e2] at h
      exact h

/-- C20 (fails on the code): on the zeroed array of `2^32 + 10` bits, for the
range at offset `2^32 - 5` of length `15` and shift `0`, the factored form
(three calls of `bitarray_reverse`) returns the array unchanged, while the
inlined loops of `bitarray_rotate`, whose cursors are `int`, start at
`i = -5`, `j = 9` and read `buf[-1]`. -/
theorem rotate_inlined_differs_from_factored :
    (bitarray_new (2 ^ 32 + 10)).wf ∧
      (2 ^ 32 - 5) + 15 ≤ (bitarray_new (2 ^ 32 + 10)).bit_sz ∧
      rotate_factored (bitarray_new (2 ^ 32 + 10)) (2 ^ 32 - 5) 15 0 =
        some (bitarray_new (2 ^ 32 + 10)) ∧
      bitarray_rotate (bitarray_new (2 ^ 32 + 10)) (2 ^ 32 - 5) 15 0 = none :=
  ⟨wf_new _ (by norm_num), by decide,
    rotate_factored_zero_shift _ _ _ (wf_new _ (by norm_num)) (by decide) (by norm_num),
    by decide⟩

/-- Witness of `rotate_factored_small`. -/
theorem rotate_factored_small_witness :
    rotate_factored (bitarray_new 70) 60 9 (-2) = bitarray_rotate (bitarray_new 70) 60 9 (-2) :=
  rotate_factored_small (bitarray_new 70) 60 9 (-2) (by decide) (by decide) (by decide)
    (by decide) (by decide)

/-! ## The bits the loops touch -/

/-- A loop of `bitarray_rotate` runs its body at the cursor pairs of
`reverse_cursors`, in order. -/
theorem reverse_loop_cursors (sz : Nat) (n : Nat) : ∀ (buf : List Nat) (i j : Int),
    (j - i).toNat ≤ n →
    reverse_loop n buf sz i j =
      (reverse_cursors n i j).foldlM (fun b c => swap_step b sz c.1 c.2) buf := by
  induction n with
  | zero =>
    intro buf i j h
    unfold reverse_loop reverse_cursors
    rw [if_neg (by omega)]
    rfl
  | succ n ih =>
    intro buf i j h
    unfold reverse_loop reverse_cursors
    by_cases hij : i < j
    · rw [if_pos hij, if_pos hij, List.foldlM_cons]
      cases hs : swap_step buf sz i j with
      | none => rfl
      | some b =>
        rw [Option.bind_eq_bind, Option.some_bind, Option.some_bind]
        exact ih b (i + 1) (j - 1) (by omega)
    · rw [if_neg hij, if_neg hij]
      rfl

theorem reverse_range_cursors (sz : Nat) (buf : List Nat) (i j : Int) :
    reverse_range buf sz i j =
      (reverse_cursors (j - i).toNat i j).foldlM (fun b c => swap_step b sz c.1 c.2) buf := by
  unfold reverse_range
  exact reverse_loop_cursors sz _ buf i j (le_refl _)

theorem reverse_cursors_range (n : Nat) : ∀ (i j : Int) (c : Int × Int),
    c ∈ reverse_cursors n i j → i ≤ c.1 ∧ c.1 < c.2 ∧ c.2 ≤ j := by
  induction n with
  | zero =>
    intro i j c h
    simp [reverse_cursors] at h
  | succ n ih =>
    intro i j c h
    unfold reverse_cursors at h
    by_cases hij : i < j
    · rw [if_pos hij] at h
      rcases List.mem_cons.1 h with h1 | h1
      · rw [h1]
        exact ⟨le_refl _, hij, le_refl _⟩
      · have := ih (i + 1) (j - 1) c h1
        omega
    · rw [if_neg hij] at h
      simp at h

/-- Within the range of exact arithmetic the pivot `q` lies in
`(bit_offset, bit_offset + bit_length]` and every cursor of the three loops
lies in `[bit_offset, bit_offset + bit_length)`, so every bit index touched is
below `bit_sz`. -/
theorem rotate_cursors_small (off len : Nat) (shift : Int) (hlen : 0 < len)
    (hidx : off + len < 2 ^ 31) (hsh : shift.natAbs < 2 ^ 24) :
    ∃ q cs, rotate_pivot off len shift = some q ∧ off < q ∧ q ≤ off + len ∧
      rotate_cursors off len shift = some cs ∧
      ∀ c ∈ cs, (off : Int) ≤ c.1 ∧ c.1 < c.2 ∧ c.2 < (off : Int) + len := by
  obtain ⟨hm, hs⟩ := modulo_shift len shift hlen (by omega) hsh
  generalize (shift % (len : Int)).toNat = s at hm hs
  have hq := rotate_pivot_eq off len shift s hlen (by omega) hm hs
  have g1 : off < off + len - s := by omega
  have g2 : off + len - s ≤ off + len := by omega
  have g6 : 0 < off + len - s := by omega
  have g7 : off + len - s < 2 ^ 31 := by omega
  have g8 : off < 2 ^ 31 := by omega
  have g9 : off + len - 1 < 2 ^ 31 := by omega
  have g10 : off + len < 2 ^ 64 := by omega
  have b2 : ((off + len - s - 1 : Nat) : Int) < (off : Int) + len := by omega
  have b3 : (off : Int) ≤ ((off + len - s : Nat) : Int) := by omega
  have b4 : ((off + len - 1 : Nat) : Int) < (off : Int) + len := by omega
  have er := to_size_add_pred off len hlen g10
  have ej := to_int_pred (off + len - s) g6 g7
  have ep := to_int_nat off g8
  have eq2 := to_int_nat (off + len - s) g7
  have er2 := to_int_nat (off + len - 1) g9
  refine ⟨off + len - s,
    reverse_cursors (((off + len - s - 1 : Nat) : Int) - (off : Int)).toNat (off : Int)
        ((off + len - s - 1 : Nat) : Int) ++
      reverse_cursors (((off + len - 1 : Nat) : Int) - ((off + len - s : Nat) : Int)).toNat
        ((off + len - s : Nat) : Int) ((off + len - 1 : Nat) : Int) ++
      reverse_cursors (((off + len - 1 : Nat) : Int) - (off : Int)).toNat (off : Int)
        ((off + len - 1 : Nat) : Int), hq, g1, g2, ?_, ?_⟩
  · unfold rotate_cursors
    rewrite [hq, Option.bind_eq_bind, Option.some_bind]
    dsimp only
    rewrite [er, ej, ep, eq2, er2]
    rfl
  · intro c hc
    rcases List.mem_append.1 hc with h1 | h1
    · rcases List.mem_append.1 h1 with h2 | h2
      · have h3 := reverse_cursors_range _ _ _ c h2
        exact ⟨h3.1, h3.2.1, lt_of_le_of_lt h3.2.2 b2⟩
      · have h3 := reverse_cursors_range _ _ _ c h2
        exact ⟨le_trans b3 h3.1, h3.2.1, lt_of_le_of_lt h3.2.2 b4⟩
    · have h3 := reverse_cursors_range _ _ _ c h1
      exact ⟨h3.1, h3.2.1, lt_of_le_of_lt h3.2.2 b4⟩

theorem foldlM_three {α β γ : Type} (f : β → α → Option β) (g : β → γ) (l1 l2 l3 : List α)
    (b : β) :
    ((l1.foldlM f b).bind fun b1 => (l2.foldlM f b1).bind fun b2 =>
        (l3.foldlM f b2).bind fun b3 => some (g b3)) =
      ((l1 ++ l2 ++ l3).foldlM f b).bind fun b3 => some (g b3) := by
  rw [List.foldlM_append, List.foldlM_append]
  cases List.foldlM f b l1 with
  | none => rfl
  | some b1 =>
    rw [Option.some_bind, Option.bind_eq_bind, Option.some_bind]
    cases List.foldlM f b1 l2 with
    | none => rfl
    | some b2 => rfl

/-- A call of `bitarray_rotate` on a range of positive length that passes the
`assert` runs `swap_step` at the cursor pairs of `rotate_cursors`, in order. -/
theorem rotate_by_cursors (ba : bitarray) (off len : Nat) (shift : Int)
    (hpre : to_size ((off : Int) + len) ≤ ba.bit_sz) (hlen : len ≠ 0) :
    bitarray_rotate ba off len shift =
      (rotate_cursors off len shift).bind fun cs =>
        (cs.foldlM (fun b c => swap_step b ba.int_sz c.1 c.2) ba.buf).bind fun b =>
          some { ba with buf := b } := by
  unfold bitarray_rotate rotate_cursors rotate_pivot
  rw [if_neg (not_not.2 hpre), if_neg hlen]
  cases hm : modulo (to_int shift) (to_int (len : Int)) with
  | none => rfl
  | some m =>
    repeat (first | rw [Option.bind_eq_bind] | rw [Option.some_bind])
    simp only [reverse_range_cursors]
    exact foldlM_three (fun (b : List Nat) (c : Int × Int) => swap_step b ba.int_sz c.1 c.2)
      (fun b => ({ ba with buf := b } : bitarray)) _ _ _ ba.buf

/-- C18 (fails on the code): on the 4-bit array "1001" the call
`bitarray_rotate(0, 4, 33554435)` has pivot `q = 5`, beyond
`bit_offset + bit_length = 4`; its first loop runs at the cursors `(0, 4)`, and
the bit at index `4 >= bit_sz`, clear before the call, is set after it. -/
theorem rotate_touches_beyond_bit_sz :
    ∃ ba ba1, testutil_frmstr "1001" = some ba ∧ bitarray_get_bit_sz ba = 4 ∧
      0 + 4 ≤ bitarray_get_bit_sz ba ∧
      rotate_pivot 0 4 33554435 = some 5 ∧
      rotate_cursors 0 4 33554435 = some [(0, 4), (1, 3), (0, 3), (1, 2)] ∧
      bitarray_rotate ba 0 4 33554435 = some ba1 ∧
      bit ba.buf 4 = false ∧ bit ba1.buf 4 = true :=
  ⟨⟨4, [9 * 2 ^ 60], 64⟩, ⟨4, [5 * 2 ^ 59], 64⟩, by decide, by decide, by decide, by decide,
    by decide, by decide, by decide, by decide⟩

/-- Witness of `rotate_cursors_small`. -/
theorem rotate_cursors_small_witness :
    ∃ q cs, rotate_pivot 2 5 2 = some q ∧ 2 < q ∧ q ≤ 2 + 5 ∧
      rotate_cursors 2 5 2 = some cs ∧
      ∀ c ∈ cs, ((2 : Nat) : Int) ≤ c.1 ∧ c.1 < c.2 ∧ c.2 < ((2 : Nat) : Int) + (5 : Nat) :=
  rotate_cursors_small 2 5 2 (by decide) (by decide) (by decide)

/-! ## One reversal -/

/-- One inlined loop of `bitarray_rotate` on `[a, b]`, for cursors below `2^31`
and inside the buffer: the loop returns, bit `a + k` is the original bit `b - k`
for every `k` in `[0, b - a]`, and every other bit is as it was. -/
theorem reverse_range_bits (buf : List Nat) (a b : Nat) (hab : a ≤ b) (hb : b < 2 ^ 31)
    (hl : b / 64 < buf.length) :
    ∃ buf1, reverse_range buf 64 (to_int (a : Int)) (to_int (b : Int)) = some buf1 ∧
      (∀ k, k ≤ b - a → bit buf1 (a + k) = bit buf (b - k)) ∧
      ∀ k, k < a ∨ b < k → bit buf1 k = bit buf k := by
  obtain ⟨buf1, e1, -, -, s1⟩ := reverse_range_spec buf a b hb hl
  have ea := to_int_nat a (by omega)
  have eb := to_int_nat b hb
  refine ⟨buf1, ?_, ?_, ?_⟩
  · rw [ea, eb]
    exact e1
  · intro k hk
    have e : a + b - (a + k) = b - k := by omega
    rw [s1, if_pos (by omega), e]
  · intro k hk
    rw [s1, if_neg (by omega)]

/-- The function `bitarray_reverse` on `[a, b]` with `b < bit_sz`, for arrays of
every size: the call returns, bit `a + k` is the original bit `b - k` for every
`k` in `[0, b - a]`, every other bit is as it was, and for `a >= b` the array is
returned as it was. -/
theorem bitarray_reverse_bits (ba : bitarray) (a b : Nat) (hw : ba.wf) (hb : b < ba.bit_sz) :
    ∃ ba1, bitarray_reverse ba a b = some ba1 ∧ ba1.bit_sz = ba.bit_sz ∧
      (a ≤ b → ∀ k, k ≤ b - a → bit ba1.buf (a + k) = bit ba.buf (b - k)) ∧
      (∀ k, k < a ∨ b < k → bit ba1.buf k = bit ba.buf k) ∧
      (b ≤ a → ba1 = ba) := by
  obtain ⟨ba1, e1, w1, z1, s1⟩ := bitarray_reverse_spec ba a b hw hb
  refine ⟨ba1, e1, z1, ?_, ?_, ?_⟩
  · intro hab k hk
    have e : a + b - (a + k) = b - k := by omega
    rw [s1, if_pos (by omega), e]
  · intro k hk
    rw [s1, if_neg (by omega)]
  · intro hba
    apply bitarray_ext ba1 ba w1 hw z1
    intro k
    rw [s1]
    by_cases hk : a ≤ k ∧ k ≤ b
    · have e : a + b - k = k := by omega
      rw [if_pos hk, e]
    · rw [if_neg hk]

/-- C21 (fails on the code): on the zeroed array of `2^32 + 10` bits and the
range `[2^32 - 5, 2^32 + 9]`, `bitarray_reverse` returns the reversed range,
while the inlined loop of `bitarray_rotate` starts from the `int` cursors `-5`
and `9` and reads `buf[-1]`. -/
theorem reverse_inlined_reads_before_buffer :
    (bitarray_new (2 ^ 32 + 10)).wf ∧ 2 ^ 32 - 5 ≤ 2 ^ 32 + 9 ∧
      2 ^ 32 + 9 < bitarray_get_bit_sz (bitarray_new (2 ^ 32 + 10)) ∧
      (∃ ba1, bitarray_reverse (bitarray_new (2 ^ 32 + 10)) (2 ^ 32 - 5) (2 ^ 32 + 9) = some ba1 ∧
        ∀ k, k ≤ 14 →
          bit ba1.buf (2 ^ 32 - 5 + k) = bit (bitarray_new (2 ^ 32 + 10)).buf (2 ^ 32 + 9 - k)) ∧
      to_int ((2 ^ 32 - 5 : Nat) : Int) = -5 ∧ to_int ((2 ^ 32 + 9 : Nat) : Int) = 9 ∧
      swap_step (bitarray_new (2 ^ 32 + 10)).buf 64 (-5) 9 = none ∧
      reverse_range (bitarray_new (2 ^ 32 + 10)).buf 64 (to_int ((2 ^ 32 - 5 : Nat) : Int))
        (to_int ((2 ^ 32 + 9 : Nat) : Int)) = none := by
  have hw : (bitarray_new (2 ^ 32 + 10)).wf := wf_new _ (by norm_num)
  have hb : 2 ^ 32 + 9 < (bitarray_new (2 ^ 32 + 10)).bit_sz := by decide
  have h14 : ∀ k, k ≤ 14 → k ≤ 2 ^ 32 + 9 - (2 ^ 32 - 5) := by intro k hk; omega
  have hab : 2 ^ 32 - 5 ≤ 2 ^ 32 + 9 := by decide
  have h1 : to_int ((2 ^ 32 - 5 : Nat) : Int) = -5 := by decide
  have h2 : to_int ((2 ^ 32 + 9 : Nat) : Int) = 9 := by decide
  have h3 : swap_step (bitarray_new (2 ^ 32 + 10)).buf 64 (-5) 9 = none := by decide
  have h4 : reverse_range (bitarray_new (2 ^ 32 + 10)).buf 64 (to_int ((2 ^ 32 - 5 : Nat) : Int))
      (to_int ((2 ^ 32 + 9 : Nat) : Int)) = none := by decide
  obtain ⟨ba1, e1, -, s1, -, -⟩ :=
    bitarray_reverse_bits (bitarray_new (2 ^ 32 + 10)) (2 ^ 32 - 5) (2 ^ 32 + 9) hw hb
  exact ⟨hw, hab, hb, ⟨ba1, e1, fun k hk => s1 hab k (h14 k hk)⟩, h1, h2, h3, h4⟩

/-- Witness of `reverse_range_bits`. -/
theorem reverse_range_bits_witness :
    ∃ buf1, reverse_range [150 * 2 ^ 56] 64 (to_int ((2 : Nat) : Int)) (to_int ((6 : Nat) : Int)) =
        some buf1 ∧
      (∀ k, k ≤ 6 - 2 → bit buf1 (2 + k) = bit [150 * 2 ^ 56] (6 - k)) ∧
      ∀ k, k < 2 ∨ 6 < k → bit buf1 k = bit [150 * 2 ^ 56] k :=
  reverse_range_bits [150 * 2 ^ 56] 2 6 (by decide) (by decide) (by decide)

/-- Witness of `bitarray_reverse_bits`. -/
theorem bitarray_reverse_bits_witness :
    ∃ ba1, bitarray_reverse ⟨8, [150 * 2 ^ 56], 64⟩ 2 6 = some ba1 ∧
      ba1.bit_sz = (⟨8, [150 * 2 ^ 56], 64⟩ : bitarray).bit_sz ∧
      (2 ≤ 6 → ∀ k, k ≤ 6 - 2 →
        bit ba1.buf (2 + k) = bit (⟨8, [150 * 2 ^ 56], 64⟩ : bitarray).buf (6 - k)) ∧
      (∀ k, k < 2 ∨ 6 < k → bit ba1.buf k = bit (⟨8, [150 * 2 ^ 56], 64⟩ : bitarray).buf k) ∧
      (6 ≤ 2 → ba1 = ⟨8, [150 * 2 ^ 56], 64⟩) :=
  bitarray_reverse_bits ⟨8, [150 * 2 ^ 56], 64⟩ 2 6 (by decide) (by decide)

/-! ## The number of iterations -/

theorem reverse_cursors_length (n : Nat) : ∀ (i j : Int), (j - i).toNat ≤ n →
    ((reverse_cursors n i j).length : Int) = if i < j then (j - i + 1) / 2 else 0 := by
  induction n with
  | zero =>
    intro i j h
    unfold reverse_cursors
    rw [if_neg (by omega)]
    rfl
  | succ n ih =>
    intro i j h
    unfold reverse_cursors
    by_cases hij : i < j
    · rw [if_pos hij, if_pos hij, List.length_cons, Nat.cast_succ, ih (i + 1) (j - 1) (by omega)]
      by_cases h2 : i + 1 < j - 1
      · rw [if_pos h2]
        omega
      · rw [if_neg h2]
        omega
    · rw [if_neg hij, if_neg hij]
      rfl

/-- The cursor pairs of a reversal of `[a, b]`: half the length of the range,
rounded down. -/
theorem reverse_cursors_count (a b : Nat) (hab : a ≤ b + 1) :
    (reverse_cursors (((b : Int) - (a : Int)).toNat) (a : Int) (b : Int)).length =
      (b + 1 - a) / 2 := by
  have h := reverse_cursors_length (((b : Int) - (a : Int)).toNat) (a : Int) (b : Int) (le_refl _)
  by_cases hlt : (a : Int) < (b : Int)
  · rw [if_pos hlt] at h
    omega
  · rw [if_neg hlt] at h
    omega

/-- The cursor pairs of the three loops within the range of exact arithmetic,
for the normalized shift `s`: those of `[p, q - 1]`, `[q, r]` and `[p, r]` with
`q = bit_offset + bit_length - s`. -/
theorem rotate_cursors_eq (off len : Nat) (shift : Int) (s : Nat) (hlen : 0 < len)
    (hidx : off + len < 2 ^ 31)
    (hm : modulo (to_int shift) (to_int (len : Int)) = some (s : Int)) (hs : s < len) :
    rotate_cursors off len shift = some
      (reverse_cursors (((off + len - s - 1 : Nat) : Int) - (off : Int)).toNat (off : Int)
          ((off + len - s - 1 : Nat) : Int) ++
        reverse_cursors (((off + len - 1 : Nat) : Int) - ((off + len - s : Nat) : Int)).toNat
          ((off + len - s : Nat) : Int) ((off + len - 1 : Nat) : Int) ++
        reverse_cursors (((off + len - 1 : Nat) : Int) - (off : Int)).toNat (off : Int)
          ((off + len - 1 : Nat) : Int)) := by
  have hq := rotate_pivot_eq off len shift s hlen (by omega) hm hs
  have g6 : 0 < off + len - s := by omega
  have g7 : off + len - s < 2 ^ 31 := by omega
  have g8 : off < 2 ^ 31 := by omega
  have g9 : off + len - 1 < 2 ^ 31 := by omega
  have g10 : off + len < 2 ^ 64 := by omega
  have er := to_size_add_pred off len hlen g10
  have ej := to_int_pred (off + len - s) g6 g7
  have ep := to_int_nat off g8
  have eq2 := to_int_nat (off + len - s) g7
  have er2 := to_int_nat (off + len - 1) g9
  unfold rotate_cursors
  rewrite [hq, Option.bind_eq_bind, Option.some_bind]
  dsimp only
  rewrite [er, ej, ep, eq2, er2]
  rfl

/-- Within the range of exact arithmetic a call of `bitarray_rotate` on a range
of positive length returns, and its three loops run
`(bit_length - s) / 2 + s / 2 + bit_length / 2` iterations in total, with `s`
the shift reduced modulo `bit_length`; that is at most `bit_length`. -/
theorem rotate_iterations_small (ba : bitarray) (off len : Nat) (shift : Int) (hw : ba.wf)
    (hlen : 0 < len) (hpre : off + len ≤ ba.bit_sz) (hidx : off + len < 2 ^ 31)
    (hsh : shift.natAbs < 2 ^ 24) :
    ∃ ba1 cs, bitarray_rotate ba off len shift = some ba1 ∧
      rotate_cursors off len shift = some cs ∧
      cs.length = (len - (shift % (len : Int)).toNat) / 2 + (shift % (len : Int)).toNat / 2 +
        len / 2 ∧
      cs.length ≤ len := by
  obtain ⟨ba1, h1, -⟩ := rotate_spec ba off len shift hw hlen hpre hidx hsh
  obtain ⟨hm, hs⟩ := modulo_shift len shift hlen (by omega) hsh
  generalize (shift % (len : Int)).toNat = s at hm hs
  have hc := rotate_cursors_eq off len shift s hlen hidx hm hs
  have c1 := reverse_cursors_count off (off + len - s - 1) (by omega)
  have c2 := reverse_cursors_count (off + len - s) (off + len - 1) (by omega)
  have c3 := reverse_cursors_count off (off + len - 1) (by omega)
  have d1 : off + len - s - 1 + 1 - off = len - s := by omega
  have d2 : off + len - 1 + 1 - (off + len - s) = s := by omega
  have d3 : off + len - 1 + 1 - off = len := by omega
  refine ⟨ba1, _, h1, hc, ?_, ?_⟩
  · rw [List.length_append, List.length_append, c1, c2, c3, d1, d2, d3]
  · rw [List.length_append, List.length_append, c1, c2, c3, d1, d2, d3]
    omega

/-- C22 (fails on the code): on the 4-bit array "1001" the call
`bitarray_rotate(0, 4, 33554435)` returns after four loop iterations, at the
cursors `(0, 4)`, `(1, 3)`, `(0, 3)`, `(1, 2)`; with the normalized shift
`s = 33554435 mod 4 = 3` the count `(4 - s) / 2 + s / 2 + 4 / 2` is three, and it
is three as well for the value `-1` that `modulo` returns. -/
theorem rotate_iterations_33554435 :
    ∃ ba ba1 cs, testutil_frmstr "1001" = some ba ∧ 0 + 4 ≤ bitarray_get_bit_sz ba ∧
      bitarray_rotate ba 0 4 33554435 = some ba1 ∧
      rotate_cursors 0 4 33554435 = some cs ∧
      cs.foldlM (fun b c => swap_step b ba.int_sz c.1 c.2) ba.buf = some ba1.buf ∧
      cs.length = 4 ∧
      (33554435 : Int) % 4 = 3 ∧ (4 - 3) / 2 + 3 / 2 + 4 / 2 = 3 ∧
      modulo (to_int 33554435) (to_int 4) = some (-1) ∧
      ((4 - (-1)) / 2 + (-1) / 2 + 4 / 2 : Int) = 3 :=
  ⟨⟨4, [9 * 2 ^ 60], 64⟩, ⟨4, [5 * 2 ^ 59], 64⟩, [(0, 4), (1, 3), (0, 3), (1, 2)], by decide,
    by decide, by decide, by decide, by decide, by decide, by decide, by decide, by decide,
    by decide⟩

/-- Witness of `rotate_iterations_small`. -/
theorem rotate_iterations_small_witness :
    ∃ ba1 cs, bitarray_rotate ⟨8, [150 * 2 ^ 56], 64⟩ 2 5 2 = some ba1 ∧
      rotate_cursors 2 5 2 = some cs ∧
      cs.length = (5 - ((2 : Int) % ((5 : Nat) : Int)).toNat) / 2 +
        ((2 : Int) % ((5 : Nat) : Int)).toNat / 2 + 5 / 2 ∧
      cs.length ≤ 5 :=
  rotate_iterations_small ⟨8, [150 * 2 ^ 56], 64⟩ 2 5 2 (by decide) (by decide) (by decide)
    (by decide) (by decide)

/-! ## `bitarray_randfill` -/

/-- The loop of `bitarray_randfill` with a bound inside the buffer returns and
has written `rand()` to the words `i .. bound - 1` and to no other word. -/
theorem randfill_loop_spec (rand : Nat → Nat) (bound : Nat) (fuel : Nat) :
    ∀ (i : Nat) (buf : List Nat), bound ≤ buf.length → bound - i ≤ fuel →
    ∃ b, randfill_loop fuel i bound rand buf = some b ∧ b.length = buf.length ∧
      ∀ k, b[k]? = if i ≤ k ∧ k < bound then some (rand k % 2 ^ 31) else buf[k]? := by
  induction fuel with
  | zero =>
    intro i buf hb hf
    refine ⟨buf, ?_, rfl, ?_⟩
    · unfold randfill_loop
      rw [if_neg (by omega)]
    · intro k
      rw [if_neg (by omega)]
  | succ fuel ih =>
    intro i buf hb hf
    unfold randfill_loop
    by_cases hi : i < bound
    · have hwr : wr buf (i : Int) (rand i % 2 ^ 31) = some (buf.set i (rand i % 2 ^ 31)) := by
        unfold wr
        rw [if_pos ⟨by omega, by rw [Int.toNat_natCast]; omega⟩, Int.toNat_natCast]
      obtain ⟨b, e, hl, hk⟩ := ih (i + 1) (buf.set i (rand i % 2 ^ 31))
        (by rw [List.length_set]; exact hb) (by omega)
      refine ⟨b, ?_, ?_, ?_⟩
      · rw [if_pos hi, hwr, Option.bind_eq_bind, Option.some_bind]
        exact e
      · rw [hl, List.length_set]
      · intro k
        rw [hk k]
        by_cases h1 : i + 1 ≤ k ∧ k < bound
        · rw [if_pos h1, if_pos ⟨by omega, h1.2⟩]
        · rw [if_neg h1]
          by_cases h2 : k = i
          · have hil : i < buf.length := by omega
            rw [if_pos ⟨by omega, by omega⟩, h2, List.getElem?_set_self hil]
          · rw [if_neg (by omega), List.getElem?_set_ne (fun h => h2 h.symm)]
    · refine ⟨buf, ?_, rfl, ?_⟩
      · rw [if_neg hi]
      · intro k
        rw [if_neg (by omega)]

/-- The loop of `bitarray_randfill` with a bound beyond the end of the buffer
writes outside the buffer. -/
theorem randfill_loop_outside (rand : Nat → Nat) (bound : Nat) (fuel : Nat) :
    ∀ (i : Nat) (buf : List Nat), buf.length < bound → i ≤ buf.length →
    randfill_loop fuel i bound rand buf = none := by
  induction fuel with
  | zero =>
    intro i buf hb hi
    unfold randfill_loop
    rw [if_pos (by omega)]
  | succ fuel ih =>
    intro i buf hb hi
    unfold randfill_loop
    rw [if_pos (by omega)]
    by_cases h : i < buf.length
    · have hwr : wr buf (i : Int) (rand i % 2 ^ 31) = some (buf.set i (rand i % 2 ^ 31)) := by
        unfold wr
        rw [if_pos ⟨by omega, by rw [Int.toNat_natCast]; omega⟩, Int.toNat_natCast]
      rw [hwr, Option.bind_eq_bind, Option.some_bind]
      exact ih (i + 1) _ (by rw [List.length_set]; exact hb) (by rw [List.length_set]; omega)
    · have hwr : wr buf (i : Int) (rand i % 2 ^ 31) = none := by
        unfold wr
        rw [if_neg (by rw [Int.toNat_natCast]; omega)]
      rw [hwr]
      rfl

/-- An array with fewer words than `bit_sz / 64 + 1`: `bitarray_randfill` writes
outside the buffer. -/
theorem randfill_short (rand : Nat → Nat) (ba : bitarray)
    (h : ba.buf.length < ba.bit_sz / 64 + 1) : bitarray_randfill rand ba = none := by
  unfold bitarray_randfill
  rw [randfill_loop_outside rand _ _ 0 ba.buf h (Nat.zero_le _)]
  rfl

/-- C23: on the array `bitarray_new(bit_sz)` the call `bitarray_randfill`
returns; afterwards the buffer has the `bit_sz / 64 + 1` words that were
allocated, word `k` holding the value of the `k`-th call of `rand()` for every
`k` from `0` to `bit_sz / 64`, and `bit_sz` is as before. -/
theorem randfill_new (rand : Nat → Nat) (n : Nat) :
    (bitarray_new_alloc true true n).ret = some (bitarray_new n) ∧
      (bitarray_new n).buf.length = n / 64 + 1 ∧
      bitarray_randfill rand (bitarray_new n) =
        some ⟨n, (List.range (n / 64 + 1)).map (fun k => rand k % 2 ^ 31), 64⟩ := by
  have hlen : (bitarray_new n).buf.length = n / 64 + 1 := List.length_replicate _ _
  refine ⟨rfl, hlen, ?_⟩
  obtain ⟨b, e, hl, hk⟩ := randfill_loop_spec rand (n / 64 + 1) (n / 64 + 1) 0
    (bitarray_new n).buf (le_of_eq hlen.symm) (by omega)
  have hb : b = (List.range (n / 64 + 1)).map (fun k => rand k % 2 ^ 31) := by
    apply List.ext_getElem?
    intro k
    rw [hk k]
    by_cases h : k < n / 64 + 1
    · rw [if_pos ⟨Nat.zero_le _, h⟩, List.getElem?_map, List.getElem?_range h]
      rfl
    · rw [if_neg (by omega), List.getElem?_eq_none (by omega),
        List.getElem?_eq_none (by rw [List.length_map, List.length_range]; omega)]
  unfold bitarray_randfill
  have e2 : randfill_loop ((bitarray_new n).bit_sz / 64 + 1) 0 ((bitarray_new n).bit_sz / 64 + 1)
      rand (bitarray_new n).buf = some b := e
  rw [e2, hb]
  rfl

/-- Witness of `randfill_short`. -/
theorem randfill_short_witness :
    bitarray_randfill (fun k => k + 5) ⟨70, [0], 64⟩ = none :=
  randfill_short (fun k => k + 5) ⟨70, [0], 64⟩ (by decide)

/-! ## `modulo` with divisor zero -/

/-- C24: for every `x`, `modulo(x, 0)` returns `0`; the division is not
evaluated. -/
theorem modulo_zero (x : Int) : modulo x 0 = some 0 := by
  unfold modulo
  rw [if_pos rfl]

/-! ## Two rotations of one range -/

/-- Within the range of exact arithmetic two rotations of one range give the
array of the single rotation by the sum of the shifts. -/
theorem rotate_compose_small (ba : bitarray) (off len : Nat) (a b : Int) (hw : ba.wf)
    (hpre : off + len ≤ ba.bit_sz) (hidx : off + len < 2 ^ 31) (ha : a.natAbs < 2 ^ 24)
    (hb : b.natAbs < 2 ^ 24) (hab : (a + b).natAbs < 2 ^ 24) :
    (bitarray_rotate ba off len a).bind (fun ba1 => bitarray_rotate ba1 off len b) =
      bitarray_rotate ba off len (a + b) := by
  rcases Nat.eq_zero_or_pos len with h0 | hpos
  · subst h0
    rw [rotate_empty_range ba off a (by omega), Option.some_bind,
      rotate_empty_range ba off b (by omega), rotate_empty_range ba off (a + b) (by omega)]
  · obtain ⟨ba1, h1, hw1, hsz1, hrot1, hframe1⟩ :=
      rotate_spec ba off len a hw hpos hpre hidx ha
    obtain ⟨ba2, h2, hw2, hsz2, hrot2, hframe2⟩ :=
      rotate_spec ba1 off len b hw1 hpos (by omega) hidx hb
    obtain ⟨ba3, h3, hw3, hsz3, hrot3, hframe3⟩ :=
      rotate_spec ba off len (a + b) hw hpos hpre hidx hab
    rw [h1, Option.some_bind, h2, h3]
    congr 1
    apply bitarray_ext ba2 ba3 hw2 hw3 (by omega)
    intro k
    by_cases hk : k < off ∨ off + len ≤ k
    · rw [hframe2 k hk, hframe1 k hk, hframe3 k hk]
    · have hl0 : (len : Int) ≠ 0 := by omega
      have hlp : (0 : Int) < (len : Int) := by omega
      have hm0 : 0 ≤ (((k - off : Nat) : Int) - (a + b)) % (len : Int) := Int.emod_nonneg _ hl0
      have hm1 : (((k - off : Nat) : Int) - (a + b)) % (len : Int) < len :=
        Int.emod_lt_of_pos _ hlp
      generalize hmd : ((((k - off : Nat) : Int) - (a + b)) % (len : Int)).toNat = m
      have hmi : (m : Int) = (((k - off : Nat) : Int) - (a + b)) % (len : Int) := by
        rw [← hmd]
        exact Int.toNat_of_nonneg hm0
      have hml : m < len := by omega
      have hj0 : 0 ≤ ((m : Int) + a) % (len : Int) := Int.emod_nonneg _ hl0
      have hj1 : ((m : Int) + a) % (len : Int) < len := Int.emod_lt_of_pos _ hlp
      generalize hjd : (((m : Int) + a) % (len : Int)).toNat = j
      have hji : (j : Int) = ((m : Int) + a) % (len : Int) := by
        rw [← hjd]
        exact Int.toNat_of_nonneg hj0
      have hjl : j < len := by omega
      have k0 : (0 : Int) ≤ ((k - off : Nat) : Int) := Int.natCast_nonneg _
      have k1 : ((k - off : Nat) : Int) < (len : Int) := by omega
      have e3 : ((m : Int) + (a + b)) % (len : Int) = ((k - off : Nat) : Int) := by
        rw [hmi, Int.emod_add_emod, sub_add_cancel]
        exact Int.emod_eq_of_lt k0 k1
      have e2 : ((j : Int) + b) % (len : Int) = ((k - off : Nat) : Int) := by
        rw [hji, Int.emod_add_emod, add_assoc]
        exact e3
      have c3 := hrot3 m hml
      have c1 := hrot1 m hml
      have c2 := hrot2 j hjl
      rw [e3, Int.toNat_natCast] at c3
      rw [e2, Int.toNat_natCast] at c2
      rw [hjd] at c1
      have ek : off + (k - off) = k := by omega
      rw [ek] at c2 c3
      rw [c2, c3, c1]

/-- C25 (fails on the code): on the 8-bit array "10010110" with offset 0 and
length 4, the shifts `16777215` and then `16777216` give "00110110", while the
single call with their sum `33554431` gives "00101110". -/
theorem rotate_sum_33554431_differs :
    ∃ ba ba1 ba2 ba3, testutil_frmstr "10010110" = some ba ∧
      0 + 4 ≤ bitarray_get_bit_sz ba ∧
      bitarray_rotate ba 0 4 16777215 = some ba1 ∧
      bitarray_rotate ba1 0 4 16777216 = some ba2 ∧
      bitarray_rotate ba 0 4 (16777215 + 16777216) = some ba3 ∧
      bitarray_fprint ba2 = some "00110110" ∧ bitarray_fprint ba3 = some "00101110" ∧
      ba2 ≠ ba3 :=
  ⟨⟨8, [150 * 2 ^ 56], 64⟩, ⟨8, [54 * 2 ^ 56], 64⟩, ⟨8, [54 * 2 ^ 56], 64⟩,
    ⟨8, [46 * 2 ^ 56], 64⟩, by decide, by decide, by decide, by decide, by decide, by decide,
    by decide, by decide⟩

/-- Witness of `rotate_compose_small`. -/
theorem rotate_compose_small_witness :
    (bitarray_rotate ⟨8, [150 * 2 ^ 56], 64⟩ 2 5 3).bind
        (fun ba1 => bitarray_rotate ba1 2 5 (-7)) =
      bitarray_rotate ⟨8, [150 * 2 ^ 56], 64⟩ 2 5 (3 + -7) :=
  rotate_compose_small ⟨8, [150 * 2 ^ 56], 64⟩ 2 5 3 (-7) (by decide) (by decide) (by decide)
    (by decide) (by decide) (by decide)

end Everybit
